import Mathlib

/-!
# Verification of `json_to_excel_AlpinAditya.py` (core transformation)

Shallow embedding of the core of the repository's single source file:
the flattener `flatten`, the sheet planner `make_sheets_from_obj`, the
sheet-name sanitizer `sanitize_sheet_name`, and the sheet-name
collision-resolution loop of `write_excel_with_openpyxl`.

Modelling conventions:
* Parsed JSON values are the inductive `JVal`.  Python dicts (which, as
  produced by `json.load`, have pairwise-distinct string keys and preserve
  insertion order) are modelled as ordered association lists
  `List (String × JVal)`; dict assignment `d[k] = v` is `insertKV`
  (replace in place if the key is present, append otherwise) and
  `d.update(e)` is `updateKVs`.
* JSON numbers are modelled as integers (`Int`); no claim depends on
  non-integer numerics.
* Python strings are Lean `String`s (sequences of unicode characters);
  slicing `s[:n]` is `List.take n` on the character data and `str.strip()`
  is `pyStrip` (dropping the ASCII whitespace characters on both ends).
* `json.dumps(v, ensure_ascii=False)` with Python's default separators
  `", "` and `": "` is `dumps`; `str(i)` on a natural number is `pyStr`.
-/

/-! ## Definitions: shallow embedding of the source -/

/-- A parsed JSON value (`object`/`array`/`string`/`number`/`boolean`/`null`).
Objects are ordered association lists, mirroring Python dict insertion order. -/
inductive JVal where
  | obj : List (String × JVal) → JVal
  | arr : List JVal → JVal
  | str : String → JVal
  | num : Int → JVal
  | bool : Bool → JVal
  | null : JVal

/-- A flat row: ordered mapping from dotted-path key to cell value. -/
abbrev Row := List (String × JVal)

/-- A sheet collection: ordered mapping from sheet name to list of rows. -/
abbrev Sheets := List (String × List Row)

/-- Python dict assignment of one key: if `k` is already a key, replace its
value in place (keeping its position); otherwise append `(k, v)` at the end. -/
def insertKV {α : Type} (m : List (String × α)) (k : String) (v : α) :
    List (String × α) :=
  if m.any (fun p => decide (p.1 = k)) then
    m.map (fun p => if p.1 = k then (k, v) else p)
  else
    m ++ [(k, v)]

/-- Python dict update: assign every pair of `e`, in order, into `m`. -/
def updateKVs {α : Type} (m e : List (String × α)) : List (String × α) :=
  e.foldl (fun acc p => insertKV acc p.1 p.2) m

/-- Decimal digits of `n`, least significant first, computed with explicit
fuel (`fuel ≥ n` suffices); `[]` for `0`. -/
def digitsRev : Nat → Nat → List Nat
  | 0, _ => []
  | _ + 1, 0 => []
  | fuel + 1, n + 1 => ((n + 1) % 10) :: digitsRev fuel ((n + 1) / 10)

/-- The character for one decimal digit. -/
def digitChar : Nat → Char
  | 0 => '0' | 1 => '1' | 2 => '2' | 3 => '3' | 4 => '4'
  | 5 => '5' | 6 => '6' | 7 => '7' | 8 => '8' | 9 => '9'
  | _ => '*'

/-- Python decimal rendering of a natural number: its decimal representation. -/
def pyStr (n : Nat) : String :=
  if n = 0 then "0" else String.mk (((digitsRev n n).reverse).map digitChar)

/-- Python decimal rendering of an integer: decimal representation with a leading
minus sign for negative values. -/
def intStr (n : Int) : String :=
  if n < 0 then "-" ++ pyStr n.natAbs else pyStr n.natAbs

/-- The character for one lowercase hexadecimal digit. -/
def hexDigitChar (n : Nat) : Char :=
  if n < 10 then digitChar n
  else if n = 10 then 'a' else if n = 11 then 'b' else if n = 12 then 'c'
  else if n = 13 then 'd' else if n = 14 then 'e' else if n = 15 then 'f'
  else '*'

/-- JSON string-escaping of one character, as `json.dumps` with
`ensure_ascii=False` performs it: `"` and `\` and the named control
characters get two-character escapes, other control characters below
U+0020 get `\u00XX`, and everything else is kept verbatim. -/
def escapeChar (c : Char) : List Char :=
  if c = '"' then ['\\', '"']
  else if c = '\\' then ['\\', '\\']
  else if c = '\n' then ['\\', 'n']
  else if c = '\t' then ['\\', 't']
  else if c = '\r' then ['\\', 'r']
  else if c.toNat = 8 then ['\\', 'b']
  else if c.toNat = 12 then ['\\', 'f']
  else if c.toNat < 32 then
    ['\\', 'u', '0', '0', hexDigitChar (c.toNat / 16), hexDigitChar (c.toNat % 16)]
  else [c]

/-- Serialization of a string: the escaped characters wrapped in quotes. -/
def dumpsString (s : String) : String :=
  String.mk ('"' :: (s.data.foldr (fun c acc => escapeChar c ++ acc) ['"']))

mutual
/-- Model of `json.dumps(v, ensure_ascii=False)` with Python's default separators
(`", "` between items, `": "` after keys). -/
def dumps : JVal → String
  | .obj kvs => "\x7b" ++ dumpsPairs kvs ++ "\x7d"
  | .arr xs => "[" ++ dumpsElems xs ++ "]"
  | .str s => dumpsString s
  | .num n => intStr n
  | .bool b => if b then "true" else "false"
  | .null => "null"

/-- Serialization of the inside of an object: `"k": v` items joined by `", "`. -/
def dumpsPairs : List (String × JVal) → String
  | [] => ""
  | [(k, v)] => dumpsString k ++ ": " ++ dumps v
  | (k, v) :: kv :: rest =>
      dumpsString k ++ ": " ++ dumps v ++ ", " ++ dumpsPairs (kv :: rest)

/-- Serialization of the inside of an array: items joined by `", "`. -/
def dumpsElems : List JVal → String
  | [] => ""
  | [v] => dumps v
  | v :: w :: rest => dumps v ++ ", " ++ dumpsElems (w :: rest)
end

mutual
/-- Model of `flatten(d, parent_key, sep)` from the source: a dict is flattened into
an ordered mapping of `sep`-joined path keys (recursing into nested dicts,
serializing nested lists to JSON strings, storing scalars verbatim); any
non-dict is the single-entry row keyed by the prefix. -/
def flatten (d : JVal) (parent_key : String) (sep : String) : Row :=
  match d with
  | .obj kvs => flattenLoop kvs parent_key sep []
  | _ => [(parent_key, d)]

/-- The `for k, v in d.items()` loop of `flatten`, threading the `items`
dict being built. -/
def flattenLoop : List (String × JVal) → String → String → Row → Row
  | [], _, _, items => items
  | (k, v) :: rest, pk, sep, items =>
      let new_key := if pk ≠ "" then pk ++ sep ++ k else k
      match v with
      | .obj _ => flattenLoop rest pk sep (updateKVs items (flatten v new_key sep))
      | .arr _ => flattenLoop rest pk sep (insertKV items new_key (.str (dumps v)))
      | _ => flattenLoop rest pk sep (insertKV items new_key v)
end

/-- One row of the top-level-array branch of `make_sheets_from_obj`:
a dict element is flattened, anything else becomes `{'value': item}`
with the element stored verbatim. -/
def arrRows : List JVal → List Row
  | [] => []
  | item :: rest =>
      (match item with
       | .obj kvs => flatten (.obj kvs) "" "."
       | _ => [("value", item)]) :: arrRows rest

/-- Is this value a JSON object (`isinstance(v, dict)`)? -/
def isObjB : JVal → Bool
  | .obj _ => true
  | _ => false

/-- Is this value a JSON array (`isinstance(v, list)`)? -/
def isArrB : JVal → Bool
  | .arr _ => true
  | _ => false

/-- The rows built for an array-valued top-level key: if every element is a
dict each element is flattened, otherwise every element is JSON-serialized
into a single-column row under `value`. -/
def arrKeyRows (xs : List JVal) : List Row :=
  if xs.all isObjB then xs.map (fun i => flatten i "" ".")
  else xs.map (fun i => [("value", JVal.str (dumps i))])

/-- The `for k, v in obj.items()` loop of `make_sheets_from_obj`, threading
the `sheets` and `remaining` dicts being built. -/
def sheetsLoop : List (String × JVal) → Sheets → List (String × JVal) →
    Sheets × List (String × JVal)
  | [], sheets, remaining => (sheets, remaining)
  | (k, v) :: rest, sheets, remaining =>
      match v with
      | .arr xs => sheetsLoop rest (insertKV sheets k (arrKeyRows xs)) remaining
      | v => sheetsLoop rest sheets (insertKV remaining k v)

/-- The sheets built for a top-level dict before the degenerate fallback:
the per-array-key sheets, plus a one-row `Summary` sheet flattening the
`remaining` dict when that dict is non-empty. -/
def objSheetsPre (kvs : List (String × JVal)) : Sheets :=
  let p := sheetsLoop kvs [] []
  if p.2.isEmpty then p.1
  else insertKV p.1 "Summary" [flatten (.obj p.2) "" "."]

/-- Model of `make_sheets_from_obj(obj)` from the source: the sheet planner. -/
def make_sheets_from_obj : JVal → Sheets
  | .arr xs => insertKV [] "Sheet1" (arrRows xs)
  | .obj kvs =>
      if (objSheetsPre kvs).isEmpty then
        insertKV (objSheetsPre kvs) "Sheet1" [flatten (.obj kvs) "" "."]
      else objSheetsPre kvs
  | v => insertKV [] "Sheet1" [[("value", JVal.str (dumps v))]]

/-- Is this character one of the ASCII whitespace characters that
Python's `str.strip()` removes? -/
def isPySpace (c : Char) : Bool :=
  c = ' ' || c = '\t' || c = '\n' || c = '\r' || c = '\x0b' || c = '\x0c'

/-- Python strip on a character sequence: drop whitespace from
both ends. -/
def pyStrip (l : List Char) : List Char :=
  ((l.dropWhile isPySpace).reverse.dropWhile isPySpace).reverse

/-- The characters `sanitize_sheet_name` replaces with `_`. -/
def invalidChars : List Char := ['\\', '/', '*', '?', ':', '[', ']']

/-- Model of `sanitize_sheet_name(name, default='Sheet')` from the source: replace
the invalid characters with `_`, strip surrounding whitespace, fall back
to the default `"Sheet"` when empty, and truncate to 31 characters.
Both call sites use the default `'Sheet'`, which is inlined here. -/
def sanitize_sheet_name (name : String) : String :=
  let s := name.data.map (fun ch => if ch ∈ invalidChars then '_' else ch)
  let s := pyStrip s
  let s := if s.isEmpty then "Sheet".data else s
  String.mk (s.take 31)

/-- The collision-suffixed candidate name of `write_excel_with_openpyxl`:
`(base[:28] + f"_{i}") if len(base) > 28 else f"{base}_{i}"`. -/
def candName (base : String) (i : Nat) : String :=
  if 28 < base.length then String.mk (base.data.take 28) ++ "_" ++ pyStr i
  else base ++ "_" ++ pyStr i

/-- The `while name in wb.sheetnames` loop of `write_excel_with_openpyxl`,
with an explicit iteration bound (`fuel`); `resolveName` runs it with fuel
`used.length + 1`, which `resolveLoop_fresh` proves is never exhausted, so
this equals the unbounded Python loop. -/
def resolveLoop (used : List String) (base : String) : Nat → Nat → String
  | 0, i => candName base i
  | fuel + 1, i =>
      let name := candName base i
      if name ∈ used then resolveLoop used base fuel (i + 1) else name

/-- The collision resolution of `write_excel_with_openpyxl` for one sheet:
keep the sanitized name if unused, otherwise append `_1`, `_2`, … until
the name is not among the used sheet names. -/
def resolveName (used : List String) (base : String) : String :=
  if base ∈ used then resolveLoop used base (used.length + 1) 1 else base

/-- The sheet-naming loop of `write_excel_with_openpyxl`: `used` is
`wb.sheetnames` (openpyxl's fresh workbook starts with one sheet named
`"Sheet"`); the first resolved name renames that default sheet, every
later one is added as a new sheet. -/
def emitLoop : List String → List String → Bool → List String
  | [], _, _ => []
  | raw :: rest, used, first =>
      let name := resolveName used (sanitize_sheet_name raw)
      name :: emitLoop rest (if first then [name] else used ++ [name]) false

/-- The sheet names actually assigned in the workbook by
`write_excel_with_openpyxl`, in order, for the given raw sheet names. -/
def emitNames (raws : List String) : List String :=
  emitLoop raws ["Sheet"] true

/-- The keys of an association list, in order. -/
def keysOf {α : Type} (m : List (String × α)) : List String := m.map Prod.fst

/-- Python dict access: the value stored at key `k`. -/
def lookupKV {α : Type} (k : String) : List (String × α) → Option α
  | [] => none
  | p :: rest => if p.1 = k then some p.2 else lookupKV k rest

/-- The rows built for the value of an array-valued top-level key
(junk value on non-arrays, which never reach this function). -/
def arrKeyRowsOf : JVal → List Row
  | .arr xs => arrKeyRows xs
  | _ => []

/-- Section 4.2 item 1 of the spec, per element: an object element is flattened
into a row; any other element becomes a single-column row under `value`
holding the element verbatim. -/
def specArrRow (x : JVal) : Row :=
  if isObjB x then flatten x "" "." else [("value", x)]

/-- Replacing the value stored at key `k` (a no-op when `k` is absent). -/
def replaceVal {α : Type} (m : List (String × α)) (k : String) (v : α) :
    List (String × α) :=
  m.map (fun p => if p.1 = k then (k, v) else p)

/-- The spec's key-composition rule: `new_key = prefix + "." + key` when the
prefix is non-empty, else `key`. -/
def newKey (p k : String) : String := if p = "" then k else p ++ "." ++ k

mutual
/-- The flattener exactly as §4.1 of the spec describes it: on an object,
every key's contribution (a recursively flattened sub-object merged under
the composed key, a JSON-serialized string for an array, or the scalar
itself) is merged left-to-right into the result; on any non-object the
result is the single-entry row keyed by the prefix. -/
def flattenSpec : JVal → String → Row
  | .obj kvs, p => flattenSpecPairs kvs p
  | v, p => [(p, v)]

/-- Per-pair contributions of `flattenSpec` on an object, merged in order. -/
def flattenSpecPairs : List (String × JVal) → String → Row
  | [], _ => []
  | (k, v) :: rest, p =>
      updateKVs
        (match v with
         | .obj _ => flattenSpec v (newKey p k)
         | .arr _ => [(newKey p k, JVal.str (dumps v))]
         | _ => [(newKey p k, v)])
        (flattenSpecPairs rest p)
end

/-- Induction over `JVal` with the inductive hypothesis available for every
member of a nested list. -/
def JVal.inductionValues (motive : JVal → Prop)
    (hobj : ∀ kvs, (∀ kv ∈ kvs, motive kv.2) → motive (.obj kvs))
    (harr : ∀ xs, (∀ x ∈ xs, motive x) → motive (.arr xs))
    (hstr : ∀ s, motive (.str s))
    (hnum : ∀ n, motive (.num n))
    (hbool : ∀ b, motive (.bool b))
    (hnull : motive .null) : ∀ v, motive v
  | .obj kvs => hobj kvs (fun kv hkv =>
      JVal.inductionValues motive hobj harr hstr hnum hbool hnull kv.2)
  | .arr xs => harr xs (fun x hx =>
      JVal.inductionValues motive hobj harr hstr hnum hbool hnull x)
  | .str s => hstr s
  | .num n => hnum n
  | .bool b => hbool b
  | .null => hnull
termination_by v => sizeOf v
decreasing_by
  · have h1 := List.sizeOf_lt_of_mem hkv
    obtain ⟨a, b⟩ := kv
    simp at h1 ⊢
    omega
  · have h1 := List.sizeOf_lt_of_mem hx
    simp
    omega

/-- The part of the collision candidate before the `_` suffix:
`base[:28]` when `len(base) > 28`, else `base` itself. -/
def candStem (base : String) : String :=
  if 28 < base.length then String.mk (base.data.take 28) else base

/-- The 28-character stem of the colliding sheet names below. -/
def cexStem : String := String.mk (List.replicate 28 'A')

/-- The ith colliding sheet name: the stem plus the suffix `_i`. -/
def cexName (i : Nat) : String := cexStem ++ "_" ++ pyStr i

/-- One hundred raw sheet names engineered to collide: 99 names
`AAAA…A_1` … `AAAA…A_99` over a 28-character stem, then one name that
sanitizes to the already-used 31-character `AAAA…A_50`. -/
def cexRaws : List String :=
  (List.range' 1 99).map cexName ++ [cexStem ++ "_50?"]

/-! ## Theorems -/

example : dumps (.arr [.num 1, .str "x", .obj [("a", .num 1)]])
    = "[1, \"x\", \x7b\"a\": 1\x7d]" := by decide

example : dumps (.str "hello") = "\"hello\"" := by decide

example : make_sheets_from_obj (.obj [("tags", .arr [.num 1, .str "x", .obj [("a", .num 1)]])])
    = [("tags", [[("value", .str "1")], [("value", .str "\"x\"")],
        [("value", .str "\x7b\"a\": 1\x7d")]])] := rfl

example : make_sheets_from_obj (.obj [("name", .str "demo"), ("count", .num 3),
      ("items", .arr [.obj [("x", .num 1)]])])
    = [("items", [[("x", .num 1)]]),
       ("Summary", [[("name", .str "demo"), ("count", .num 3)]])] := rfl

example : make_sheets_from_obj (.obj []) = [("Sheet1", [[]])] := rfl

example : make_sheets_from_obj (.obj [("a", .num 1), ("b", .num 2)])
    = [("Summary", [[("a", .num 1), ("b", .num 2)]])] := rfl

example : make_sheets_from_obj (.str "hello")
    = [("Sheet1", [[("value", .str "\"hello\"")]])] := rfl

example : make_sheets_from_obj (.obj [("Summary", .arr [.num 1]), ("x", .num 2)])
    = [("Summary", [[("x", .num 2)]])] := rfl

example : flatten (.obj [("a", .obj [("b", .num 1), ("c", .arr [.num 2])]), ("d", .null)]) "" "."
    = [("a.b", .num 1), ("a.c", .str "[2]"), ("d", .null)] := rfl

example : sanitize_sheet_name "  a/b*c  " = "a_b_c" := by decide

example : sanitize_sheet_name "  " = "Sheet" := by decide

example : sanitize_sheet_name "" = "Sheet" := by decide

example : emitNames ["t", "t", "t"] = ["t", "t_1", "t_2"] := by decide

example : emitNames ["Sheet"] = ["Sheet_1"] := by decide

example : pyStr 105 = "105" := by decide

theorem keysOf_append {α : Type} (a b : List (String × α)) :
    keysOf (a ++ b) = keysOf a ++ keysOf b := List.map_append _ a b

theorem any_decide_eq_true_iff {α : Type} (m : List (String × α)) (k : String) :
    (m.any (fun p => decide (p.1 = k))) = true ↔ k ∈ keysOf m := by
  simp only [List.any_eq_true, decide_eq_true_eq, keysOf, List.mem_map]

theorem insertKV_of_not_mem {α : Type} {m : List (String × α)} {k : String}
    (v : α) (h : k ∉ keysOf m) : insertKV m k v = m ++ [(k, v)] := by
  unfold insertKV
  rw [if_neg]
  rw [any_decide_eq_true_iff]
  exact h

theorem insertKV_of_mem {α : Type} {m : List (String × α)} {k : String}
    (v : α) (h : k ∈ keysOf m) :
    insertKV m k v = m.map (fun p => if p.1 = k then (k, v) else p) := by
  unfold insertKV
  rw [if_pos]
  rw [any_decide_eq_true_iff]
  exact h

theorem keysOf_insertKV_of_mem {α : Type} {m : List (String × α)} {k : String}
    (v : α) (h : k ∈ keysOf m) : keysOf (insertKV m k v) = keysOf m := by
  rw [insertKV_of_mem v h]
  unfold keysOf
  rw [List.map_map]
  apply List.map_congr_left
  intro p _
  by_cases hp : p.1 = k
  · simp only [Function.comp_apply, if_pos hp]
    exact hp.symm
  · simp only [Function.comp_apply, if_neg hp]

theorem keysOf_insertKV_of_not_mem {α : Type} {m : List (String × α)} {k : String}
    (v : α) (h : k ∉ keysOf m) : keysOf (insertKV m k v) = keysOf m ++ [k] := by
  rw [insertKV_of_not_mem v h, keysOf_append]
  rfl

theorem insertKV_ne_nil {α : Type} (m : List (String × α)) (k : String) (v : α) :
    insertKV m k v ≠ [] := by
  by_cases h : k ∈ keysOf m
  · rw [insertKV_of_mem v h]
    intro he
    rw [List.map_eq_nil_iff] at he
    subst he
    simp [keysOf] at h
  · rw [insertKV_of_not_mem v h]
    simp

theorem length_le_length_insertKV {α : Type} (m : List (String × α)) (k : String)
    (v : α) : m.length ≤ (insertKV m k v).length := by
  by_cases h : k ∈ keysOf m
  · rw [insertKV_of_mem v h, List.length_map]
  · rw [insertKV_of_not_mem v h, List.length_append]
    omega

theorem nodup_keysOf_insertKV {α : Type} {m : List (String × α)} (k : String)
    (v : α) (h : (keysOf m).Nodup) : (keysOf (insertKV m k v)).Nodup := by
  by_cases hk : k ∈ keysOf m
  · rw [keysOf_insertKV_of_mem v hk]
    exact h
  · rw [keysOf_insertKV_of_not_mem v hk]
    simp [List.nodup_append, h, hk]

theorem mem_keysOf_of_mem {α : Type} {m : List (String × α)} {p : String × α}
    (h : p ∈ m) : p.1 ∈ keysOf m := List.mem_map.2 ⟨p, h, rfl⟩

theorem lookupKV_append_left {α : Type} {a : List (String × α)}
    (b : List (String × α)) {k : String} (h : k ∈ keysOf a) :
    lookupKV k (a ++ b) = lookupKV k a := by
  induction a with
  | nil => simp [keysOf] at h
  | cons p rest ih =>
      by_cases hkp : p.1 = k
      · simp [lookupKV, hkp]
      · have hmem : k ∈ keysOf rest := by
          rcases List.mem_map.1 h with ⟨q, hq, hq2⟩
          rcases List.mem_cons.1 hq with h1 | h1
          · exact absurd (h1 ▸ hq2) hkp
          · exact List.mem_map.2 ⟨q, h1, hq2⟩
        simpa [lookupKV, hkp] using ih hmem

theorem lookupKV_append_right {α : Type} {a : List (String × α)}
    (b : List (String × α)) {k : String} (h : k ∉ keysOf a) :
    lookupKV k (a ++ b) = lookupKV k b := by
  induction a with
  | nil => rfl
  | cons p rest ih =>
      have hkp : p.1 ≠ k := by
        intro he
        exact h (List.mem_map.2 ⟨p, List.mem_cons_self p rest, he⟩)
      have hrest : k ∉ keysOf rest := by
        intro he
        rcases List.mem_map.1 he with ⟨q, hq, hq2⟩
        exact h (List.mem_map.2 ⟨q, List.mem_cons_of_mem p hq, hq2⟩)
      simpa [lookupKV, hkp] using ih hrest

theorem lookupKV_map_replace_ne {α : Type} (m : List (String × α))
    {k k' : String} (v : α) (h : k ≠ k') :
    lookupKV k (m.map (fun p => if p.1 = k' then (k', v) else p))
      = lookupKV k m := by
  induction m with
  | nil => rfl
  | cons p rest ih =>
      by_cases hp : p.1 = k'
      · have : k' ≠ k := fun he => h he.symm
        simp [lookupKV, hp, this, ih]
      · simp only [List.map_cons, if_neg hp]
        by_cases hkp : p.1 = k
        · simp [lookupKV, hkp]
        · simp [lookupKV, hkp, ih]

theorem lookupKV_insertKV_ne {α : Type} (m : List (String × α)) {k k' : String}
    (v : α) (h : k ≠ k') : lookupKV k (insertKV m k' v) = lookupKV k m := by
  by_cases hk : k' ∈ keysOf m
  · rw [insertKV_of_mem v hk]
    exact lookupKV_map_replace_ne m v h
  · rw [insertKV_of_not_mem v hk]
    induction m with
    | nil => simp [lookupKV, Ne.symm h]
    | cons p rest ih =>
        have hrest : k' ∉ keysOf rest := by
          intro he
          rcases List.mem_map.1 he with ⟨q, hq, hq2⟩
          exact hk (List.mem_map.2 ⟨q, List.mem_cons_of_mem p hq, hq2⟩)
        by_cases hkp : p.1 = k
        · simp [lookupKV, hkp]
        · simp [lookupKV, hkp, ih hrest]

theorem lookupKV_eq_some_of_mem {α : Type} {m : List (String × α)} {k : String}
    {v : α} (hn : (keysOf m).Nodup) (h : (k, v) ∈ m) :
    lookupKV k m = some v := by
  induction m with
  | nil => cases h
  | cons p rest ih =>
      rcases List.mem_cons.1 h with h1 | h1
      · subst h1
        simp [lookupKV]
      · have hp : p.1 ≠ k := by
          intro he
          have hmem : k ∈ keysOf rest := List.mem_map.2 ⟨(k, v), h1, rfl⟩
          rw [← he] at hmem
          exact (List.nodup_cons.1 hn).1 hmem
        simp only [lookupKV, if_neg hp]
        exact ih (List.nodup_cons.1 hn).2 h1

theorem mem_value_unique {α : Type} {m : List (String × α)} {k : String}
    {a b : α} (hn : (keysOf m).Nodup) (ha : (k, a) ∈ m) (hb : (k, b) ∈ m) :
    a = b := by
  have h1 := lookupKV_eq_some_of_mem hn ha
  have h2 := lookupKV_eq_some_of_mem hn hb
  rw [h1] at h2
  exact Option.some.inj h2

theorem sheetsLoop_cons_arr (k : String) (xs : List JVal)
    (rest : List (String × JVal)) (sheets : Sheets)
    (remaining : List (String × JVal)) :
    sheetsLoop ((k, .arr xs) :: rest) sheets remaining
      = sheetsLoop rest (insertKV sheets k (arrKeyRows xs)) remaining := rfl

theorem sheetsLoop_cons_not_arr {v : JVal} (k : String)
    (rest : List (String × JVal)) (sheets : Sheets)
    (remaining : List (String × JVal)) (h : isArrB v = false) :
    sheetsLoop ((k, v) :: rest) sheets remaining
      = sheetsLoop rest sheets (insertKV remaining k v) := by
  cases v with
  | arr xs => simp [isArrB] at h
  | obj kvs => rfl
  | str s => rfl
  | num n => rfl
  | bool b => rfl
  | null => rfl

theorem sheetsLoop_eq (kvs : List (String × JVal)) :
    ∀ (sheets : Sheets) (remaining : List (String × JVal)),
    (keysOf kvs).Nodup →
    (∀ kv ∈ kvs, kv.1 ∉ keysOf sheets) →
    (∀ kv ∈ kvs, kv.1 ∉ keysOf remaining) →
    sheetsLoop kvs sheets remaining =
      (sheets ++ (kvs.filter (fun kv => isArrB kv.2)).map
          (fun kv => (kv.1, arrKeyRowsOf kv.2)),
       remaining ++ kvs.filter (fun kv => !isArrB kv.2)) := by
  induction kvs with
  | nil =>
      intro sheets remaining _ _ _
      simp [sheetsLoop]
  | cons kv rest ih =>
      intro sheets remaining hnodup hs hr
      obtain ⟨k, v⟩ := kv
      have hknodup : k ∉ keysOf rest := by
        have := List.nodup_cons.1 hnodup
        simpa [keysOf] using this.1
      have hrestnodup : (keysOf rest).Nodup := (List.nodup_cons.1 hnodup).2
      by_cases hv : isArrB v = true
      · obtain ⟨xs, rfl⟩ : ∃ xs, v = .arr xs := by
          cases v <;> simp [isArrB] at hv ⊢
        rw [sheetsLoop_cons_arr]
        have hks : k ∉ keysOf sheets := hs (k, .arr xs) (List.mem_cons_self _ _)
        rw [insertKV_of_not_mem _ hks]
        rw [ih (sheets ++ [(k, arrKeyRows xs)]) remaining hrestnodup ?_ ?_]
        · simp [List.filter_cons, isArrB, arrKeyRowsOf, List.append_assoc]
        · intro q hq
          rw [keysOf_append]
          intro hmem
          rcases List.mem_append.1 hmem with h1 | h1
          · exact hs q (List.mem_cons_of_mem _ hq) h1
          · have : q.1 = k := by simpa [keysOf] using h1
            exact hknodup (this ▸ mem_keysOf_of_mem hq)
        · intro q hq
          exact hr q (List.mem_cons_of_mem _ hq)
      · have hv' : isArrB v = false := by
          revert hv
          cases isArrB v <;> simp
        rw [sheetsLoop_cons_not_arr k rest sheets remaining hv']
        have hkr : k ∉ keysOf remaining := hr (k, v) (List.mem_cons_self _ _)
        rw [insertKV_of_not_mem _ hkr]
        rw [ih sheets (remaining ++ [(k, v)]) hrestnodup ?_ ?_]
        · simp [List.filter_cons, hv', List.append_assoc]
        · intro q hq
          exact hs q (List.mem_cons_of_mem _ hq)
        · intro q hq
          rw [keysOf_append]
          intro hmem
          rcases List.mem_append.1 hmem with h1 | h1
          · exact hr q (List.mem_cons_of_mem _ hq) h1
          · have : q.1 = k := by simpa [keysOf] using h1
            exact hknodup (this ▸ mem_keysOf_of_mem hq)

theorem sheetsLoop_spec (kvs : List (String × JVal))
    (h : (keysOf kvs).Nodup) :
    sheetsLoop kvs [] [] =
      ((kvs.filter (fun kv => isArrB kv.2)).map
          (fun kv => (kv.1, arrKeyRowsOf kv.2)),
       kvs.filter (fun kv => !isArrB kv.2)) := by
  have := sheetsLoop_eq kvs [] [] h (by simp [keysOf]) (by simp [keysOf])
  simpa using this

theorem arrRows_eq_map (xs : List JVal) : arrRows xs = xs.map specArrRow := by
  induction xs with
  | nil => rfl
  | cons x rest ih =>
      cases x <;> simp [arrRows, specArrRow, isObjB, ih]

/-- C4: for a top-level array, `make_sheets_from_obj` produces exactly one
sheet, named `Sheet1`, with one row per array element in order: object
elements are flattened into rows and every non-object element becomes the
single-column row `{'value': element}` holding the element verbatim. -/
theorem C4_top_level_array (xs : List JVal) :
    make_sheets_from_obj (.arr xs) = [("Sheet1", xs.map specArrRow)]
      ∧ (xs.map specArrRow).length = xs.length := by
  constructor
  · show insertKV [] "Sheet1" (arrRows xs) = _
    rw [arrRows_eq_map]
    rfl
  · exact List.length_map xs specArrRow

/-- C3: for every parsed JSON value the sheet planner totally produces a
non-empty sheet collection; in this embedding `make_sheets_from_obj` is a
total function, and its result always contains at least one sheet. -/
theorem C3_totality (v : JVal) : 0 < (make_sheets_from_obj v).length := by
  cases v with
  | obj kvs =>
      show 0 < (if (objSheetsPre kvs).isEmpty then
          insertKV (objSheetsPre kvs) "Sheet1" [flatten (.obj kvs) "" "."]
        else objSheetsPre kvs).length
      by_cases h : (objSheetsPre kvs).isEmpty
      · rw [if_pos h]
        exact List.length_pos.2 (insertKV_ne_nil _ _ _)
      · rw [if_neg h]
        refine List.length_pos.2 ?_
        intro he
        exact h (by rw [he]; rfl)
  | arr xs => exact List.length_pos.2 (insertKV_ne_nil _ _ _)
  | str s => exact List.length_pos.2 (insertKV_ne_nil _ _ _)
  | num n => exact List.length_pos.2 (insertKV_ne_nil _ _ _)
  | bool b => exact List.length_pos.2 (insertKV_ne_nil _ _ _)
  | null => exact List.length_pos.2 (insertKV_ne_nil _ _ _)

/-- C7: for every top-level scalar (string/number/boolean/null) the planner
produces exactly one sheet `Sheet1` with a single row whose single column
`value` holds the JSON-serialized scalar. -/
theorem C7_top_level_scalar (v : JVal) (ho : isObjB v = false)
    (ha : isArrB v = false) :
    make_sheets_from_obj v = [("Sheet1", [[("value", JVal.str (dumps v))]])] := by
  cases v with
  | obj kvs => simp [isObjB] at ho
  | arr xs => simp [isArrB] at ha
  | str s => rfl
  | num n => rfl
  | bool b => rfl
  | null => rfl

/-- Witness for C7 at the spec's own example: the input `"hello"` yields
sheet `Sheet1`, one row, column `value`, holding the five-character string
wrapped in JSON quotes. -/
theorem C7_witness :
    isObjB (.str "hello") = false ∧ isArrB (.str "hello") = false ∧
      make_sheets_from_obj (.str "hello")
        = [("Sheet1", [[("value", JVal.str "\"hello\"")]])] :=
  ⟨rfl, rfl, C7_top_level_scalar (.str "hello") rfl rfl⟩

/-- C8: for every non-object value `v` and every prefix `p` (possibly
empty), `flatten v p "."` is the single-entry row keyed by the prefix
itself, with `v` stored verbatim. -/
theorem C8_flatten_non_object (v : JVal) (p : String) (h : isObjB v = false) :
    flatten v p "." = [(p, v)] := by
  cases v with
  | obj kvs => simp [isObjB] at h
  | arr xs => rfl
  | str s => rfl
  | num n => rfl
  | bool b => rfl
  | null => rfl

/-- Witness for C8: a bare scalar with the empty prefix. -/
theorem C8_witness :
    isObjB (.num 3) = false ∧ flatten (.num 3) "" "." = [("", JVal.num 3)] :=
  ⟨rfl, C8_flatten_non_object (.num 3) "" rfl⟩

theorem sheetsLoop_fst_length (kvs : List (String × JVal)) :
    ∀ (sheets : Sheets) (remaining : List (String × JVal)),
    sheets.length ≤ (sheetsLoop kvs sheets remaining).1.length := by
  induction kvs with
  | nil => intro sheets remaining; exact Nat.le_refl _
  | cons kv rest ih =>
      intro sheets remaining
      obtain ⟨k, v⟩ := kv
      by_cases hv : isArrB v = true
      · obtain ⟨xs, rfl⟩ : ∃ xs, v = .arr xs := by
          cases v <;> simp [isArrB] at hv ⊢
        rw [sheetsLoop_cons_arr]
        exact le_trans (length_le_length_insertKV _ _ _) (ih _ _)
      · have hv' : isArrB v = false := by revert hv; cases isArrB v <;> simp
        rw [sheetsLoop_cons_not_arr _ _ _ _ hv']
        exact ih _ _

theorem sheetsLoop_snd_length (kvs : List (String × JVal)) :
    ∀ (sheets : Sheets) (remaining : List (String × JVal)),
    remaining.length ≤ (sheetsLoop kvs sheets remaining).2.length := by
  induction kvs with
  | nil => intro sheets remaining; exact Nat.le_refl _
  | cons kv rest ih =>
      intro sheets remaining
      obtain ⟨k, v⟩ := kv
      by_cases hv : isArrB v = true
      · obtain ⟨xs, rfl⟩ : ∃ xs, v = .arr xs := by
          cases v <;> simp [isArrB] at hv ⊢
        rw [sheetsLoop_cons_arr]
        exact ih _ _
      · have hv' : isArrB v = false := by revert hv; cases isArrB v <;> simp
        rw [sheetsLoop_cons_not_arr _ _ _ _ hv']
        exact le_trans (length_le_length_insertKV _ _ _) (ih _ _)

theorem objSheetsPre_def (kvs : List (String × JVal)) :
    objSheetsPre kvs =
      if (sheetsLoop kvs [] []).2.isEmpty then (sheetsLoop kvs [] []).1
      else insertKV (sheetsLoop kvs [] []).1 "Summary"
        [flatten (.obj (sheetsLoop kvs [] []).2) "" "."] := rfl

theorem isEmpty_false_of_ne_nil {α : Type} {l : List α} (h : l ≠ []) :
    l.isEmpty = false := by
  cases l with
  | nil => exact absurd rfl h
  | cons a rest => rfl

theorem objSheetsPre_isEmpty_iff (kvs : List (String × JVal)) :
    (objSheetsPre kvs).isEmpty = true ↔ kvs = [] := by
  constructor
  · intro h
    cases kvs with
    | nil => rfl
    | cons kv rest =>
        exfalso
        obtain ⟨k, v⟩ := kv
        rw [objSheetsPre_def] at h
        by_cases hv : isArrB v = true
        · obtain ⟨xs, rfl⟩ : ∃ xs, v = .arr xs := by
            cases v <;> simp [isArrB] at hv ⊢
          have h1 : 0 < (sheetsLoop ((k, JVal.arr xs) :: rest) [] []).1.length := by
            rw [sheetsLoop_cons_arr]
            have hle := sheetsLoop_fst_length rest (insertKV [] k (arrKeyRows xs)) []
            have : 0 < (insertKV ([] : Sheets) k (arrKeyRows xs)).length :=
              List.length_pos.2 (insertKV_ne_nil _ _ _)
            omega
          revert h
          by_cases h2 : (sheetsLoop ((k, JVal.arr xs) :: rest) [] []).2.isEmpty
          · rw [if_pos h2]
            intro h
            rw [List.isEmpty_iff.1 h] at h1
            simp at h1
          · rw [if_neg h2]
            intro h
            exact insertKV_ne_nil _ _ _ (List.isEmpty_iff.1 h)
        · have hv' : isArrB v = false := by revert hv; cases isArrB v <;> simp
          have h2 : 0 < (sheetsLoop ((k, v) :: rest) [] []).2.length := by
            rw [sheetsLoop_cons_not_arr _ _ _ _ hv']
            have hle := sheetsLoop_snd_length rest [] (insertKV [] k v)
            have : 0 < (insertKV ([] : List (String × JVal)) k v).length :=
              List.length_pos.2 (insertKV_ne_nil _ _ _)
            omega
          have h2' : (sheetsLoop ((k, v) :: rest) [] []).2.isEmpty = false := by
            apply isEmpty_false_of_ne_nil
            intro he
            rw [he] at h2
            simp at h2
          rw [if_neg (by rw [h2']; exact Bool.false_ne_true)] at h
          exact insertKV_ne_nil _ _ _ (List.isEmpty_iff.1 h)
  · intro h
    subst h
    rfl

/-- C5: the `Sheet1` fallback for a top-level object is taken exactly when
no other sheet was produced — the per-key sheets and the remaining bucket
are both empty, which happens exactly for the empty object; `{}` yields one
sheet `Sheet1` with one empty row, while `{"a":1,"b":2}` yields exactly the
one sheet `Summary` and never `Sheet1`. -/
theorem C5_fallback_iff (kvs : List (String × JVal)) :
    (make_sheets_from_obj (.obj kvs)
        = if (objSheetsPre kvs).isEmpty then [("Sheet1", [flatten (.obj kvs) "" "."])]
          else objSheetsPre kvs)
    ∧ ((objSheetsPre kvs).isEmpty
        = ((sheetsLoop kvs [] []).1.isEmpty && (sheetsLoop kvs [] []).2.isEmpty))
    ∧ ((objSheetsPre kvs).isEmpty = true ↔ kvs = [])
    ∧ make_sheets_from_obj (.obj []) = [("Sheet1", [[]])]
    ∧ make_sheets_from_obj (.obj [("a", .num 1), ("b", .num 2)])
        = [("Summary", [[("a", .num 1), ("b", .num 2)]])] := by
  refine ⟨?_, ?_, objSheetsPre_isEmpty_iff kvs, rfl, rfl⟩
  · show (if (objSheetsPre kvs).isEmpty then
        insertKV (objSheetsPre kvs) "Sheet1" [flatten (.obj kvs) "" "."]
      else objSheetsPre kvs) = _
    by_cases h : (objSheetsPre kvs).isEmpty
    · rw [if_pos h, if_pos h, List.isEmpty_iff.1 h]
      rfl
    · rw [if_neg h, if_neg h]
  · rw [objSheetsPre_def]
    cases h2 : (sheetsLoop kvs [] []).2.isEmpty
    · rw [if_neg Bool.false_ne_true]
      rw [isEmpty_false_of_ne_nil (insertKV_ne_nil _ _ _)]
      simp
    · rw [if_pos rfl]
      simp

theorem keysOf_arrSheets (kvs : List (String × JVal)) :
    keysOf ((kvs.filter (fun kv => isArrB kv.2)).map
        (fun kv => (kv.1, arrKeyRowsOf kv.2)))
      = keysOf (kvs.filter (fun kv => isArrB kv.2)) := by
  unfold keysOf
  rw [List.map_map]
  rfl

theorem nodup_keysOf_filter {α : Type} (f : String × α → Bool)
    {m : List (String × α)} (h : (keysOf m).Nodup) :
    (keysOf (m.filter f)).Nodup := by
  unfold keysOf
  exact ((List.filter_sublist m).map Prod.fst).nodup h

theorem make_sheets_obj_spec (kvs : List (String × JVal))
    (hn : (keysOf kvs).Nodup) :
    make_sheets_from_obj (.obj kvs) =
      if (kvs.filter (fun kv => !isArrB kv.2)).isEmpty then
        (if ((kvs.filter (fun kv => isArrB kv.2)).map
            (fun kv => (kv.1, arrKeyRowsOf kv.2))).isEmpty then
          [("Sheet1", [flatten (.obj kvs) "" "."])]
        else (kvs.filter (fun kv => isArrB kv.2)).map
            (fun kv => (kv.1, arrKeyRowsOf kv.2)))
      else insertKV ((kvs.filter (fun kv => isArrB kv.2)).map
          (fun kv => (kv.1, arrKeyRowsOf kv.2)))
        "Summary" [flatten (.obj (kvs.filter (fun kv => !isArrB kv.2))) "" "."] := by
  have hpre : objSheetsPre kvs =
      if (kvs.filter (fun kv => !isArrB kv.2)).isEmpty then
        (kvs.filter (fun kv => isArrB kv.2)).map (fun kv => (kv.1, arrKeyRowsOf kv.2))
      else insertKV ((kvs.filter (fun kv => isArrB kv.2)).map
          (fun kv => (kv.1, arrKeyRowsOf kv.2)))
        "Summary" [flatten (.obj (kvs.filter (fun kv => !isArrB kv.2))) "" "."] := by
    rw [objSheetsPre_def, sheetsLoop_spec _ hn]
  show (if (objSheetsPre kvs).isEmpty then
      insertKV (objSheetsPre kvs) "Sheet1" [flatten (.obj kvs) "" "."]
    else objSheetsPre kvs) = _
  rw [hpre]
  cases hr : (kvs.filter (fun kv => !isArrB kv.2)).isEmpty
  · simp only [Bool.false_eq_true, if_false]
    rw [isEmpty_false_of_ne_nil (insertKV_ne_nil _ _ _)]
    simp only [Bool.false_eq_true, if_false]
  · simp only [if_true]
    cases ha : ((kvs.filter (fun kv => isArrB kv.2)).map
        (fun kv => (kv.1, arrKeyRowsOf kv.2))).isEmpty
    · simp only [Bool.false_eq_true, if_false]
    · simp only [if_true]
      rw [List.isEmpty_iff.1 ha]
      rfl

theorem mem_arrSheets {kvs : List (String × JVal)} {k : String} {xs : List JVal}
    (hmem : (k, JVal.arr xs) ∈ kvs) :
    (k, arrKeyRows xs) ∈ (kvs.filter (fun kv => isArrB kv.2)).map
      (fun kv => (kv.1, arrKeyRowsOf kv.2)) := by
  refine List.mem_map.2 ⟨(k, JVal.arr xs), ?_, rfl⟩
  exact List.mem_filter.2 ⟨hmem, rfl⟩

theorem lookupKV_make_sheets_arr_key {kvs : List (String × JVal)} {k : String}
    {xs : List JVal} (hn : (keysOf kvs).Nodup)
    (hmem : (k, JVal.arr xs) ∈ kvs)
    (hsummary : k = "Summary" → kvs.filter (fun kv => !isArrB kv.2) = []) :
    lookupKV k (make_sheets_from_obj (.obj kvs)) = some (arrKeyRows xs) := by
  have hA : (k, arrKeyRows xs) ∈ (kvs.filter (fun kv => isArrB kv.2)).map
      (fun kv => (kv.1, arrKeyRowsOf kv.2)) := mem_arrSheets hmem
  have hAnodup : (keysOf ((kvs.filter (fun kv => isArrB kv.2)).map
      (fun kv => (kv.1, arrKeyRowsOf kv.2)))).Nodup := by
    rw [keysOf_arrSheets]
    exact nodup_keysOf_filter _ hn
  have hlook : lookupKV k ((kvs.filter (fun kv => isArrB kv.2)).map
      (fun kv => (kv.1, arrKeyRowsOf kv.2))) = some (arrKeyRows xs) :=
    lookupKV_eq_some_of_mem hAnodup hA
  rw [make_sheets_obj_spec kvs hn]
  cases hr : (kvs.filter (fun kv => !isArrB kv.2)).isEmpty
  · simp only [Bool.false_eq_true, if_false]
    have hk : k ≠ "Summary" := by
      intro he
      rw [hsummary he] at hr
      exact absurd hr (by decide)
    rw [lookupKV_insertKV_ne _ _ hk]
    exact hlook
  · simp only [if_true]
    rw [isEmpty_false_of_ne_nil (by
      intro he
      rw [he] at hA
      cases hA)]
    simp only [Bool.false_eq_true, if_false]
    exact hlook

/-- C1 refutation: in `{"tags": [1, "x", {"a":1}]}` the scalar elements `1`
and `"x"` of the mixed array are NOT stored verbatim — the code
JSON-serializes every element, so `1` is stored as the string `"1"` and
`"x"` as the quoted string, contrary to the claim. -/
theorem C1_counterexample :
    make_sheets_from_obj (.obj [("tags", .arr [.num 1, .str "x", .obj [("a", .num 1)]])])
      = [("tags", [[("value", .str "1")], [("value", .str "\"x\"")],
          [("value", .str "\x7b\"a\": 1\x7d")]])]
    ∧ JVal.str "1" ≠ JVal.num 1
    ∧ JVal.str "\"x\"" ≠ JVal.str "x" :=
  ⟨rfl, fun h => JVal.noConfusion h,
   fun h => by injection h with h'; exact absurd h' (by decide)⟩

/-- C1 (amended): for a top-level object with an array-valued key `k` whose
array is not entirely composed of objects, the planner produces a sheet
named `k` in which EVERY element (scalar or not) is JSON-serialized to a
string and stored as the single-column row `{'value': json.dumps(element)}`
(provided `k` is not the reserved name `Summary` while a remaining bucket
exists, in which case the `Summary` sheet overwrites it). -/
theorem C1_amended (kvs : List (String × JVal)) (k : String) (xs : List JVal)
    (hn : (keysOf kvs).Nodup)
    (hmem : (k, JVal.arr xs) ∈ kvs)
    (hnotall : xs.all isObjB = false)
    (hsummary : k = "Summary" → kvs.filter (fun kv => !isArrB kv.2) = []) :
    lookupKV k (make_sheets_from_obj (.obj kvs))
      = some (xs.map (fun i => [("value", JVal.str (dumps i))])) := by
  have h := lookupKV_make_sheets_arr_key hn hmem hsummary
  rw [h, arrKeyRows, if_neg (by rw [hnotall]; exact Bool.false_ne_true)]

/-- Witness for the amended C1: `{"tags": [1]}` yields sheet `tags` whose
single row stores the serialized string `"1"`. -/
theorem C1_amended_witness :
    (keysOf [("tags", JVal.arr [.num 1])]).Nodup
    ∧ ([JVal.num 1].all isObjB = false)
    ∧ lookupKV "tags" (make_sheets_from_obj (.obj [("tags", .arr [.num 1])]))
      = some [[("value", JVal.str "1")]] :=
  ⟨by decide, rfl,
   C1_amended [("tags", .arr [.num 1])] "tags" [.num 1] (by decide)
     (List.mem_cons_self _ _) rfl (fun h => absurd h (by decide))⟩

/-- C2 refutation: in `{"Summary": [1], "x": 2}` the sheet produced for the
array-valued key `"Summary"` is REPLACED by the summary sheet of the
remaining bucket, so the planner returns one sheet, not one sheet per
array-valued key plus `Summary` (which would be two). -/
theorem C2_counterexample :
    make_sheets_from_obj (.obj [("Summary", .arr [.num 1]), ("x", .num 2)])
      = [("Summary", [[("x", .num 2)]])]
    ∧ (make_sheets_from_obj (.obj [("Summary", .arr [.num 1]), ("x", .num 2)])).length ≠ 2 :=
  ⟨rfl, by decide⟩

/-- C2 (amended): for a top-level object with at least one non-array value
and no array-valued key literally named `Summary`, the planner emits one
sheet per array-valued key (named after the key, in order) plus one
additional sheet `Summary` appended at the end, containing exactly the one
row that flattens the remaining bucket. -/
theorem C2_amended (kvs : List (String × JVal))
    (hn : (keysOf kvs).Nodup)
    (hex : ∃ kv ∈ kvs, isArrB kv.2 = false)
    (hs : ∀ kv ∈ kvs, kv.1 = "Summary" → isArrB kv.2 = false) :
    keysOf (make_sheets_from_obj (.obj kvs))
      = keysOf (kvs.filter (fun kv => isArrB kv.2)) ++ ["Summary"]
    ∧ lookupKV "Summary" (make_sheets_from_obj (.obj kvs))
      = some [flatten (.obj (kvs.filter (fun kv => !isArrB kv.2))) "" "."]
    ∧ (make_sheets_from_obj (.obj kvs)).length
      = (kvs.filter (fun kv => isArrB kv.2)).length + 1 := by
  obtain ⟨kv0, hkv0, hkv0arr⟩ := hex
  have hr : (kvs.filter (fun kv => !isArrB kv.2)).isEmpty = false := by
    apply isEmpty_false_of_ne_nil
    intro he
    have : kv0 ∈ kvs.filter (fun kv => !isArrB kv.2) :=
      List.mem_filter.2 ⟨hkv0, by rw [hkv0arr]; rfl⟩
    rw [he] at this
    cases this
  have hSnotmem : "Summary" ∉ keysOf ((kvs.filter (fun kv => isArrB kv.2)).map
      (fun kv => (kv.1, arrKeyRowsOf kv.2))) := by
    rw [keysOf_arrSheets]
    intro hmem
    rcases List.mem_map.1 hmem with ⟨q, hq, hq1⟩
    have hqf := List.mem_filter.1 hq
    have := hs q hqf.1 hq1
    rw [this] at hqf
    exact Bool.false_ne_true hqf.2
  have hres : make_sheets_from_obj (.obj kvs)
      = (kvs.filter (fun kv => isArrB kv.2)).map (fun kv => (kv.1, arrKeyRowsOf kv.2))
        ++ [("Summary", [flatten (.obj (kvs.filter (fun kv => !isArrB kv.2))) "" "."])] := by
    rw [make_sheets_obj_spec kvs hn, hr]
    simp only [Bool.false_eq_true, if_false]
    exact insertKV_of_not_mem _ hSnotmem
  refine ⟨?_, ?_, ?_⟩
  · rw [hres, keysOf_append, keysOf_arrSheets]
    rfl
  · rw [hres, lookupKV_append_right _ hSnotmem]
    simp [lookupKV]
  · rw [hres, List.length_append, List.length_map]
    rfl

/-- Witness for the amended C2 at the spec's own example
`{"name":"demo","count":3,"items":[{"x":1}]}`: sheet names `items` then
`Summary`, with the `Summary` sheet holding the single flattened row of the
remaining bucket. -/
theorem C2_amended_witness :
    (keysOf [("name", JVal.str "demo"), ("count", JVal.num 3),
        ("items", JVal.arr [.obj [("x", .num 1)]])]).Nodup
    ∧ keysOf (make_sheets_from_obj (.obj [("name", .str "demo"), ("count", .num 3),
        ("items", .arr [.obj [("x", .num 1)]])]))
      = ["items", "Summary"]
    ∧ lookupKV "Summary" (make_sheets_from_obj (.obj [("name", .str "demo"),
        ("count", .num 3), ("items", .arr [.obj [("x", .num 1)]])]))
      = some [[("name", JVal.str "demo"), ("count", JVal.num 3)]] := by
  have h := C2_amended [("name", .str "demo"), ("count", .num 3),
      ("items", .arr [.obj [("x", .num 1)]])] (by decide)
    ⟨("name", .str "demo"), List.mem_cons_self _ _, rfl⟩ (by decide)
  exact ⟨by decide, h.1, h.2.1⟩

/-- C10 refutation: in `{"Summary": [], "x": 1}` the empty-array key
`"Summary"` does get its own zero-row sheet at first, but the summary of
the remaining bucket then overwrites it, so the resulting sheet named after
the key has one row, not zero. -/
theorem C10_counterexample :
    make_sheets_from_obj (.obj [("Summary", .arr []), ("x", .num 1)])
      = [("Summary", [[("x", .num 1)]])]
    ∧ lookupKV "Summary" (make_sheets_from_obj (.obj [("Summary", .arr []), ("x", .num 1)]))
      ≠ some ([] : List Row) :=
  ⟨rfl, fun h => List.cons_ne_nil _ _ (Option.some.inj h)⟩

/-- C10 (amended): a top-level key mapping to the empty array `[]` vacuously
passes the `all(isinstance(i, dict))` test, so it yields its own sheet
(named after the key) with zero rows, and it is not placed into the
remaining bucket — provided the key is not the reserved name `Summary`
while a remaining bucket exists. -/
theorem C10_amended (kvs : List (String × JVal)) (k : String)
    (hn : (keysOf kvs).Nodup)
    (hmem : (k, JVal.arr []) ∈ kvs)
    (hsummary : k = "Summary" → kvs.filter (fun kv => !isArrB kv.2) = []) :
    lookupKV k (make_sheets_from_obj (.obj kvs)) = some ([] : List Row)
    ∧ k ∉ keysOf (kvs.filter (fun kv => !isArrB kv.2)) := by
  constructor
  · have h := lookupKV_make_sheets_arr_key hn hmem hsummary
    rw [h]
    rfl
  · intro hk
    rcases List.mem_map.1 hk with ⟨q, hq, hq1⟩
    have hqf := List.mem_filter.1 hq
    obtain ⟨k', v'⟩ := q
    have hkk : k' = k := hq1
    subst hkk
    have := mem_value_unique hn hmem hqf.1
    rw [← this] at hqf
    exact Bool.false_ne_true hqf.2

/-- Witness for the amended C10: `{"empty": [], "n": 5}` yields a zero-row
sheet `empty`, and `empty` is not in the remaining bucket. -/
theorem C10_amended_witness :
    (keysOf [("empty", JVal.arr []), ("n", JVal.num 5)]).Nodup
    ∧ lookupKV "empty" (make_sheets_from_obj
        (.obj [("empty", .arr []), ("n", .num 5)])) = some ([] : List Row)
    ∧ "empty" ∉ keysOf ([("empty", JVal.arr []), ("n", JVal.num 5)].filter
        (fun kv => !isArrB kv.2)) := by
  have h := C10_amended [("empty", .arr []), ("n", .num 5)] "empty" (by decide)
    (List.mem_cons_self _ _) (fun h => absurd h (by decide))
  exact ⟨by decide, h.1, h.2⟩

theorem updateKVs_nil_right {α : Type} (m : List (String × α)) :
    updateKVs m [] = m := rfl

theorem updateKVs_cons_right {α : Type} (m : List (String × α)) (p : String × α)
    (e : List (String × α)) :
    updateKVs m (p :: e) = updateKVs (insertKV m p.1 p.2) e := rfl

theorem updateKVs_singleton {α : Type} (m : List (String × α)) (k : String)
    (v : α) : updateKVs m [(k, v)] = insertKV m k v := rfl

theorem map_replace_of_not_mem {α : Type} {m : List (String × α)} {k : String}
    (v : α) (h : k ∉ keysOf m) :
    m.map (fun p => if p.1 = k then (k, v) else p) = m := by
  have : m.map (fun p => if p.1 = k then (k, v) else p) = m.map id := by
    apply List.map_congr_left
    intro p hp
    have : p.1 ≠ k := by
      intro he
      exact h (he ▸ mem_keysOf_of_mem hp)
    simp [this]
  rw [this, List.map_id]

theorem mem_keysOf_insertKV {α : Type} {m : List (String × α)} {k k' : String}
    (v : α) (h : k ∈ keysOf m) : k ∈ keysOf (insertKV m k' v) := by
  by_cases hk : k' ∈ keysOf m
  · rw [keysOf_insertKV_of_mem v hk]
    exact h
  · rw [keysOf_insertKV_of_not_mem v hk]
    exact List.mem_append.2 (Or.inl h)

theorem self_mem_keysOf_insertKV {α : Type} (m : List (String × α)) (k : String)
    (v : α) : k ∈ keysOf (insertKV m k v) := by
  by_cases hk : k ∈ keysOf m
  · rw [keysOf_insertKV_of_mem v hk]
    exact hk
  · rw [keysOf_insertKV_of_not_mem v hk]
    exact List.mem_append.2 (Or.inr (List.mem_singleton.2 rfl))

theorem insertKV_collapse {α : Type} (m : List (String × α)) (k : String)
    (w v : α) : insertKV (insertKV m k w) k v = insertKV m k v := by
  by_cases hk : k ∈ keysOf m
  · have hk2 : k ∈ keysOf (m.map (fun p => if p.1 = k then (k, w) else p)) := by
      have h1 := keysOf_insertKV_of_mem w hk
      rw [insertKV_of_mem w hk] at h1
      rw [h1]
      exact hk
    rw [insertKV_of_mem w hk, insertKV_of_mem v hk2, insertKV_of_mem v hk,
      List.map_map]
    apply List.map_congr_left
    intro p _
    by_cases hp : p.1 = k
    · simp [hp]
    · simp [hp]
  · rw [insertKV_of_not_mem w hk]
    have hmem : k ∈ keysOf (m ++ [(k, w)]) := by
      rw [keysOf_append]
      exact List.mem_append.2 (Or.inr (List.mem_singleton.2 rfl))
    rw [insertKV_of_mem v hmem, insertKV_of_not_mem v hk, List.map_append,
      map_replace_of_not_mem v hk]
    simp

theorem insertKV_comm {α : Type} (m : List (String × α)) {k k2 : String}
    (v u : α) (hne : k ≠ k2) (hk : k ∈ keysOf m) :
    insertKV (insertKV m k2 u) k v = insertKV (insertKV m k v) k2 u := by
  have hne2 : k2 ≠ k := fun he => hne he.symm
  by_cases hk2 : k2 ∈ keysOf m
  · have hka : k ∈ keysOf (m.map (fun p => if p.1 = k2 then (k2, u) else p)) := by
      have h1 := keysOf_insertKV_of_mem u hk2
      rw [insertKV_of_mem u hk2] at h1
      rw [h1]
      exact hk
    have hk2a : k2 ∈ keysOf (m.map (fun p => if p.1 = k then (k, v) else p)) := by
      have h1 := keysOf_insertKV_of_mem v hk
      rw [insertKV_of_mem v hk] at h1
      rw [h1]
      exact hk2
    rw [insertKV_of_mem u hk2, insertKV_of_mem v hk, insertKV_of_mem v hka,
      insertKV_of_mem u hk2a, List.map_map, List.map_map]
    apply List.map_congr_left
    intro p _
    by_cases hp : p.1 = k
    · have hp' : p.1 ≠ k2 := by rw [hp]; exact hne
      simp [hp, hp', hne]
    · by_cases hp2 : p.1 = k2
      · simp [hp, hp2, hne2]
      · simp [hp, hp2]
  · rw [insertKV_of_not_mem u hk2]
    have hmem : k ∈ keysOf (m ++ [(k2, u)]) := by
      rw [keysOf_append]
      exact List.mem_append.2 (Or.inl hk)
    rw [insertKV_of_mem v hmem, insertKV_of_mem v hk, List.map_append]
    have hk2' : k2 ∉ keysOf (m.map (fun p => if p.1 = k then (k, v) else p)) := by
      rw [← insertKV_of_mem v hk, keysOf_insertKV_of_mem v hk]
      exact hk2
    rw [insertKV_of_not_mem u hk2']
    simp [hne2]

theorem keysOf_replaceVal {α : Type} (m : List (String × α)) (k : String)
    (v : α) : keysOf (replaceVal m k v) = keysOf m := by
  unfold keysOf replaceVal
  rw [List.map_map]
  apply List.map_congr_left
  intro p _
  by_cases hp : p.1 = k
  · simp only [Function.comp_apply, if_pos hp]
    exact hp.symm
  · simp only [Function.comp_apply, if_neg hp]

theorem replaceVal_of_not_mem {α : Type} {m : List (String × α)} {k : String}
    (v : α) (h : k ∉ keysOf m) : replaceVal m k v = m :=
  map_replace_of_not_mem v h

theorem insertKV_eq_replaceVal {α : Type} {m : List (String × α)} {k : String}
    (v : α) (h : k ∈ keysOf m) : insertKV m k v = replaceVal m k v :=
  insertKV_of_mem v h

theorem replaceVal_replaceVal {α : Type} (m : List (String × α)) (k : String)
    (w v : α) : replaceVal (replaceVal m k w) k v = replaceVal m k v := by
  unfold replaceVal
  rw [List.map_map]
  apply List.map_congr_left
  intro p _
  by_cases hp : p.1 = k
  · simp [hp]
  · simp [hp]

theorem replaceVal_insertKV_collapse {α : Type} (m : List (String × α))
    (k : String) (w v : α) : replaceVal (insertKV m k w) k v = insertKV m k v := by
  by_cases hk : k ∈ keysOf m
  · rw [insertKV_eq_replaceVal w hk, insertKV_eq_replaceVal v hk,
      replaceVal_replaceVal]
  · rw [insertKV_of_not_mem w hk, insertKV_of_not_mem v hk]
    unfold replaceVal
    rw [List.map_append, map_replace_of_not_mem v hk]
    simp

theorem insertKV_replaceVal_same {α : Type} (m : List (String × α)) (k : String)
    (v u : α) : insertKV (replaceVal m k v) k u = insertKV m k u := by
  by_cases hk : k ∈ keysOf m
  · rw [insertKV_eq_replaceVal u (by rw [keysOf_replaceVal]; exact hk),
      insertKV_eq_replaceVal u hk, replaceVal_replaceVal]
  · rw [replaceVal_of_not_mem v hk]

theorem insertKV_replaceVal_ne {α : Type} (m : List (String × α)) {k k' : String}
    (v u : α) (hne : k' ≠ k) :
    insertKV (replaceVal m k v) k' u = replaceVal (insertKV m k' u) k v := by
  by_cases hk' : k' ∈ keysOf m
  · rw [insertKV_eq_replaceVal u (by rw [keysOf_replaceVal]; exact hk'),
      insertKV_eq_replaceVal u hk']
    unfold replaceVal
    rw [List.map_map, List.map_map]
    apply List.map_congr_left
    intro p _
    have hkk : k ≠ k' := fun he => hne he.symm
    by_cases hp : p.1 = k
    · have hp' : p.1 ≠ k' := by rw [hp]; exact hkk
      simp [hp, hp', hkk]
    · by_cases hp2 : p.1 = k'
      · simp [hp, hp2, hne]
      · simp [hp, hp2]
  · rw [insertKV_of_not_mem u (by rw [keysOf_replaceVal]; exact hk'),
      insertKV_of_not_mem u hk']
    unfold replaceVal
    rw [List.map_append]
    simp [hne]

theorem updateKVs_replaceVal {α : Type} (e : List (String × α)) :
    ∀ (m : List (String × α)) (k : String) (v : α),
    (∃ p ∈ e, p.1 = k) →
    updateKVs (replaceVal m k v) e = updateKVs m e := by
  induction e with
  | nil =>
      intro m k v h
      rcases h with ⟨p, hp, _⟩
      cases hp
  | cons q rest ih =>
      intro m k v h
      rw [updateKVs_cons_right, updateKVs_cons_right]
      by_cases hq : q.1 = k
      · rw [hq, insertKV_replaceVal_same]
      · rw [insertKV_replaceVal_ne m v q.2 hq]
        rcases h with ⟨p, hp, hpk⟩
        rcases List.mem_cons.1 hp with h1 | h1
        · exact absurd (h1 ▸ hpk) hq
        · exact ih (insertKV m q.1 q.2) k v ⟨p, h1, hpk⟩

theorem insertKV_updateKVs_not_mem {α : Type} (e : List (String × α)) :
    ∀ (m : List (String × α)) (k : String) (v : α),
    k ∉ keysOf e → k ∈ keysOf m →
    insertKV (updateKVs m e) k v = updateKVs (insertKV m k v) e := by
  induction e with
  | nil => intro m k v _ _; rfl
  | cons q rest ih =>
      intro m k v hke hkm
      have hq : k ≠ q.1 := by
        intro he
        exact hke (he ▸ mem_keysOf_of_mem (List.mem_cons_self q rest))
      have hrest : k ∉ keysOf rest := by
        intro he
        rcases List.mem_map.1 he with ⟨p, hp, hp1⟩
        exact hke (List.mem_map.2 ⟨p, List.mem_cons_of_mem q hp, hp1⟩)
      rw [updateKVs_cons_right, updateKVs_cons_right]
      rw [ih (insertKV m q.1 q.2) k v hrest (mem_keysOf_insertKV q.2 hkm)]
      rw [insertKV_comm m v q.2 hq hkm]

theorem exists_of_mem_keysOf {α : Type} {m : List (String × α)} {k : String}
    (h : k ∈ keysOf m) : ∃ p ∈ m, p.1 = k := List.mem_map.1 h

theorem updateKVs_append_right {α : Type} (m e1 e2 : List (String × α)) :
    updateKVs m (e1 ++ e2) = updateKVs (updateKVs m e1) e2 :=
  List.foldl_append ..

theorem insertKV_updateKVs {α : Type} (b : List (String × α)) :
    ∀ (a : List (String × α)) (k : String) (v : α),
    insertKV (updateKVs a b) k v = updateKVs a (insertKV b k v) := by
  induction b with
  | nil => intro a k v; rfl
  | cons q rest ih =>
      intro a k v
      by_cases hk : k ∈ keysOf (q :: rest)
      · rw [insertKV_eq_replaceVal v hk]
        show insertKV (updateKVs (insertKV a q.1 q.2) rest) k v
          = updateKVs a ((if q.1 = k then (k, v) else q) :: replaceVal rest k v)
        by_cases hq : q.1 = k
        · rw [if_pos hq]
          by_cases hkrest : k ∈ keysOf rest
          · rw [ih, insertKV_eq_replaceVal v hkrest, hq]
            rw [updateKVs_cons_right]
            show updateKVs (insertKV a k q.2) (replaceVal rest k v)
              = updateKVs (insertKV a k v) (replaceVal rest k v)
            rw [← replaceVal_insertKV_collapse a k v q.2]
            apply updateKVs_replaceVal
            refine exists_of_mem_keysOf ?_
            rw [keysOf_replaceVal]
            exact hkrest
          · have h1 : k ∈ keysOf (insertKV a q.1 q.2) := by
              rw [hq]
              exact self_mem_keysOf_insertKV a k q.2
            rw [insertKV_updateKVs_not_mem rest (insertKV a q.1 q.2) k v hkrest h1]
            rw [hq, insertKV_collapse]
            rw [updateKVs_cons_right, replaceVal_of_not_mem v hkrest]
        · rw [if_neg hq]
          have hkrest : k ∈ keysOf rest := by
            rcases exists_of_mem_keysOf hk with ⟨p, hp, hp1⟩
            rcases List.mem_cons.1 hp with h1 | h1
            · exact absurd (h1 ▸ hp1) hq
            · exact hp1 ▸ mem_keysOf_of_mem h1
          rw [ih, insertKV_eq_replaceVal v hkrest, updateKVs_cons_right]
      · rw [insertKV_of_not_mem v hk, updateKVs_append_right]
        rfl

theorem updateKVs_assoc {α : Type} (c : List (String × α)) :
    ∀ (a b : List (String × α)),
    updateKVs (updateKVs a b) c = updateKVs a (updateKVs b c) := by
  induction c with
  | nil => intro a b; rfl
  | cons x c' ih =>
      intro a b
      rw [updateKVs_cons_right, insertKV_updateKVs, ih]
      rfl

theorem updateKVs_eq_append {α : Type} (e : List (String × α)) :
    ∀ (m : List (String × α)), (keysOf e).Nodup →
    (∀ p ∈ e, p.1 ∉ keysOf m) → updateKVs m e = m ++ e := by
  induction e with
  | nil => intro m _ _; simp [updateKVs_nil_right]
  | cons q rest ih =>
      intro m hn hf
      rw [updateKVs_cons_right, insertKV_of_not_mem _ (hf q (List.mem_cons_self q rest))]
      have hq : q.1 ∉ keysOf rest := by
        have : keysOf (q :: rest) = q.1 :: keysOf rest := rfl
        rw [this] at hn
        exact (List.nodup_cons.1 hn).1
      rw [ih (m ++ [q]) (by
          have : keysOf (q :: rest) = q.1 :: keysOf rest := rfl
          rw [this] at hn
          exact (List.nodup_cons.1 hn).2)
        (by
          intro p hp
          rw [keysOf_append]
          intro hmem
          rcases List.mem_append.1 hmem with h1 | h1
          · exact hf p (List.mem_cons_of_mem q hp) h1
          · have : p.1 = q.1 := by simpa [keysOf] using h1
            exact hq (this ▸ mem_keysOf_of_mem hp))]
      simp

theorem updateKVs_nil_left {α : Type} (e : List (String × α))
    (hn : (keysOf e).Nodup) : updateKVs [] e = e := by
  have := updateKVs_eq_append e [] hn (by intro p _; simp [keysOf])
  simpa using this

theorem nodup_keysOf_updateKVs {α : Type} (e : List (String × α)) :
    ∀ (m : List (String × α)), (keysOf m).Nodup →
    (keysOf (updateKVs m e)).Nodup := by
  induction e with
  | nil => intro m h; exact h
  | cons q rest ih =>
      intro m h
      rw [updateKVs_cons_right]
      exact ih _ (nodup_keysOf_insertKV q.1 q.2 h)

theorem nodup_keysOf_flattenSpecPairs (kvs : List (String × JVal)) (p : String)
    (ih : ∀ kv ∈ kvs, ∀ q, (keysOf (flattenSpec kv.2 q)).Nodup) :
    (keysOf (flattenSpecPairs kvs p)).Nodup := by
  cases kvs with
  | nil => simp [flattenSpecPairs, keysOf]
  | cons q rest =>
      obtain ⟨k, v⟩ := q
      cases v with
      | obj kvs2 =>
          exact nodup_keysOf_updateKVs _ _
            (ih (k, .obj kvs2) (List.mem_cons_self _ _) (newKey p k))
      | arr xs => exact nodup_keysOf_updateKVs _ _ (by simp [keysOf])
      | str s => exact nodup_keysOf_updateKVs _ _ (by simp [keysOf])
      | num n => exact nodup_keysOf_updateKVs _ _ (by simp [keysOf])
      | bool b => exact nodup_keysOf_updateKVs _ _ (by simp [keysOf])
      | null => exact nodup_keysOf_updateKVs _ _ (by simp [keysOf])

theorem nodup_keysOf_flattenSpec (v : JVal) :
    ∀ p, (keysOf (flattenSpec v p)).Nodup := by
  refine JVal.inductionValues (fun v => ∀ p, (keysOf (flattenSpec v p)).Nodup)
    ?_ ?_ ?_ ?_ ?_ ?_ v
  · intro kvs ihm p
    exact nodup_keysOf_flattenSpecPairs kvs p ihm
  · intro xs _ p
    simp [flattenSpec, keysOf]
  · intro s p
    simp [flattenSpec, keysOf]
  · intro n p
    simp [flattenSpec, keysOf]
  · intro b p
    simp [flattenSpec, keysOf]
  · intro p
    simp [flattenSpec, keysOf]

theorem flattenLoop_eq_spec (kvs : List (String × JVal)) (p : String)
    (ih : ∀ kv ∈ kvs, ∀ q, flatten kv.2 q "." = flattenSpec kv.2 q) :
    ∀ items, flattenLoop kvs p "." items
      = updateKVs items (flattenSpecPairs kvs p) := by
  have hkey : ∀ k : String, (if p ≠ "" then p ++ "." ++ k else k) = newKey p k := by
    intro k
    unfold newKey
    by_cases hp : p = "" <;> simp [hp]
  induction kvs with
  | nil => intro items; rfl
  | cons q rest ihl =>
      intro items
      obtain ⟨k, v⟩ := q
      have ihrest : ∀ kv ∈ rest, ∀ q, flatten kv.2 q "." = flattenSpec kv.2 q :=
        fun kv hkv => ih kv (List.mem_cons_of_mem _ hkv)
      cases v with
      | obj kvs2 =>
          show flattenLoop rest p "."
              (updateKVs items (flatten (.obj kvs2) (if p ≠ "" then p ++ "." ++ k else k) "."))
            = updateKVs items (updateKVs (flattenSpec (.obj kvs2) (newKey p k))
                (flattenSpecPairs rest p))
          rw [hkey k, ih (k, .obj kvs2) (List.mem_cons_self _ _) (newKey p k)]
          rw [ihl ihrest, updateKVs_assoc]
      | arr xs =>
          show flattenLoop rest p "."
              (insertKV items (if p ≠ "" then p ++ "." ++ k else k)
                (.str (dumps (.arr xs))))
            = updateKVs items (updateKVs [(newKey p k, JVal.str (dumps (.arr xs)))]
                (flattenSpecPairs rest p))
          rw [hkey k, ← updateKVs_singleton items (newKey p k)]
          rw [ihl ihrest, updateKVs_assoc]
      | str s =>
          show flattenLoop rest p "."
              (insertKV items (if p ≠ "" then p ++ "." ++ k else k) (.str s))
            = updateKVs items (updateKVs [(newKey p k, JVal.str s)]
                (flattenSpecPairs rest p))
          rw [hkey k, ← updateKVs_singleton items (newKey p k)]
          rw [ihl ihrest, updateKVs_assoc]
      | num n =>
          show flattenLoop rest p "."
              (insertKV items (if p ≠ "" then p ++ "." ++ k else k) (.num n))
            = updateKVs items (updateKVs [(newKey p k, JVal.num n)]
                (flattenSpecPairs rest p))
          rw [hkey k, ← updateKVs_singleton items (newKey p k)]
          rw [ihl ihrest, updateKVs_assoc]
      | bool b =>
          show flattenLoop rest p "."
              (insertKV items (if p ≠ "" then p ++ "." ++ k else k) (.bool b))
            = updateKVs items (updateKVs [(newKey p k, JVal.bool b)]
                (flattenSpecPairs rest p))
          rw [hkey k, ← updateKVs_singleton items (newKey p k)]
          rw [ihl ihrest, updateKVs_assoc]
      | null =>
          show flattenLoop rest p "."
              (insertKV items (if p ≠ "" then p ++ "." ++ k else k) .null)
            = updateKVs items (updateKVs [(newKey p k, JVal.null)]
                (flattenSpecPairs rest p))
          rw [hkey k, ← updateKVs_singleton items (newKey p k)]
          rw [ihl ihrest, updateKVs_assoc]

/-- C6: the source's `flatten` (with the call sites' separator `"."`)
coincides with the flattener as the spec's §4.1 words it: each key `k` with
prefix `p` contributes under `new_key = p + "." + k` when `p` is non-empty
and under `k` otherwise; a nested object is recursively flattened and
merged under that key; a nested array is serialized to a JSON string
stored as a single cell; a scalar is stored directly. -/
theorem C6_flatten_refines_spec (v : JVal) (p : String) :
    flatten v p "." = flattenSpec v p := by
  refine JVal.inductionValues (fun v => ∀ p, flatten v p "." = flattenSpec v p)
    ?_ ?_ ?_ ?_ ?_ ?_ v p
  · intro kvs ihm p
    show flattenLoop kvs p "." [] = flattenSpecPairs kvs p
    rw [flattenLoop_eq_spec kvs p ihm]
    exact updateKVs_nil_left _ (nodup_keysOf_flattenSpecPairs kvs p
      (fun kv _ q => nodup_keysOf_flattenSpec kv.2 q))
  · intro xs _ p
    rfl
  · intro s p
    rfl
  · intro n p
    rfl
  · intro b p
    rfl
  · intro p
    rfl

theorem digitsRev_ofDigits : ∀ (fuel n : Nat), n ≤ fuel →
    Nat.ofDigits 10 (digitsRev fuel n) = n := by
  intro fuel
  induction fuel with
  | zero =>
      intro n h
      have hn : n = 0 := Nat.le_zero.1 h
      subst hn
      simp [digitsRev, Nat.ofDigits_nil]
  | succ f ihf =>
      intro n h
      cases n with
      | zero => simp [digitsRev, Nat.ofDigits_nil]
      | succ m =>
          show Nat.ofDigits 10 (((m + 1) % 10) :: digitsRev f ((m + 1) / 10)) = m + 1
          rw [Nat.ofDigits_cons, ihf]
          · omega
          · have hd : (m + 1) / 10 < m + 1 := Nat.div_lt_self (Nat.succ_pos m) (by norm_num)
            omega

theorem digitsRev_lt10 : ∀ (fuel n : Nat), ∀ d ∈ digitsRev fuel n, d < 10 := by
  intro fuel
  induction fuel with
  | zero => intro n d hd; cases hd
  | succ f ihf =>
      intro n d hd
      cases n with
      | zero => cases hd
      | succ m =>
          rcases List.mem_cons.1 hd with h1 | h1
          · subst h1
            exact Nat.mod_lt _ (by norm_num)
          · exact ihf _ d h1

theorem digitChar_inj : ∀ a : Nat, a < 10 → ∀ b : Nat, b < 10 →
    digitChar a = digitChar b → a = b := by decide

theorem map_digitChar_inj : ∀ (l1 l2 : List Nat), (∀ d ∈ l1, d < 10) →
    (∀ d ∈ l2, d < 10) → l1.map digitChar = l2.map digitChar → l1 = l2 := by
  intro l1
  induction l1 with
  | nil =>
      intro l2 _ _ h
      cases l2 with
      | nil => rfl
      | cons b t => cases h
  | cons a t1 ih =>
      intro l2 h1 h2 h
      cases l2 with
      | nil => cases h
      | cons b t2 =>
          have hh : digitChar a = digitChar b := by
            injection h
          have ht : t1.map digitChar = t2.map digitChar := by
            injection h
          have ha := h1 a (List.mem_cons_self a t1)
          have hb := h2 b (List.mem_cons_self b t2)
          rw [digitChar_inj a ha b hb hh,
            ih t2 (fun d hd => h1 d (List.mem_cons_of_mem a hd))
              (fun d hd => h2 d (List.mem_cons_of_mem b hd)) ht]

theorem pyStr_injective : ∀ a b : Nat, pyStr a = pyStr b → a = b := by
  have key : ∀ a b : Nat, a ≠ 0 → b ≠ 0 → pyStr a = pyStr b → a = b := by
    intro a b ha hb h
    unfold pyStr at h
    rw [if_neg ha, if_neg hb] at h
    have hdata : ((digitsRev a a).reverse).map digitChar
        = ((digitsRev b b).reverse).map digitChar := congrArg String.data h
    have hrev : (digitsRev a a).reverse = (digitsRev b b).reverse :=
      map_digitChar_inj _ _
        (fun d hd => digitsRev_lt10 a a d (List.mem_reverse.1 hd))
        (fun d hd => digitsRev_lt10 b b d (List.mem_reverse.1 hd)) hdata
    have hdig : digitsRev a a = digitsRev b b := by
      have := congrArg List.reverse hrev
      simpa using this
    have h1 := digitsRev_ofDigits a a (Nat.le_refl a)
    have h2 := digitsRev_ofDigits b b (Nat.le_refl b)
    rw [← h1, ← h2, hdig]
  have zero_ne : ∀ b : Nat, b ≠ 0 → pyStr 0 ≠ pyStr b := by
    intro b hb h
    unfold pyStr at h
    rw [if_pos rfl, if_neg hb] at h
    have hdata : ('0' : Char) :: [] = ((digitsRev b b).reverse).map digitChar :=
      congrArg String.data h
    have h0 : ([0] : List Nat).map digitChar
        = ((digitsRev b b).reverse).map digitChar := hdata
    have hrev : ([0] : List Nat) = (digitsRev b b).reverse :=
      map_digitChar_inj _ _ (by intro d hd; simp at hd; omega)
        (fun d hd => digitsRev_lt10 b b d (List.mem_reverse.1 hd)) h0
    have hdig : digitsRev b b = [0] := by
      have := congrArg List.reverse hrev
      simpa using this.symm
    have h2 := digitsRev_ofDigits b b (Nat.le_refl b)
    rw [hdig] at h2
    simp [Nat.ofDigits] at h2
    exact hb h2.symm
  intro a b h
  by_cases ha : a = 0
  · by_cases hb : b = 0
    · rw [ha, hb]
    · exact absurd (ha ▸ h) (zero_ne b hb)
  · by_cases hb : b = 0
    · exact absurd (hb ▸ h).symm (zero_ne a ha)
    · exact key a b ha hb h

theorem digitsRev_length_le : ∀ (fuel n k : Nat), n < 10 ^ k →
    (digitsRev fuel n).length ≤ k := by
  intro fuel
  induction fuel with
  | zero => intro n k _; simp [digitsRev]
  | succ f ihf =>
      intro n k hk
      cases n with
      | zero => simp [digitsRev]
      | succ m =>
          cases k with
          | zero => simp at hk
          | succ j =>
              show ((m + 1) % 10 :: digitsRev f ((m + 1) / 10)).length ≤ j + 1
              have hdiv : (m + 1) / 10 < 10 ^ j := by
                rw [Nat.div_lt_iff_lt_mul (by norm_num : 0 < 10)]
                calc m + 1 < 10 ^ (j + 1) := hk
                _ = 10 ^ j * 10 := by rw [pow_succ]
              have := ihf ((m + 1) / 10) j hdiv
              simp only [List.length_cons]
              omega

theorem pyStr_length_le (i k : Nat) (hi : i ≠ 0) (hk : i < 10 ^ k) :
    (pyStr i).length ≤ k := by
  unfold pyStr
  rw [if_neg hi]
  show (((digitsRev i i).reverse).map digitChar).length ≤ k
  rw [List.length_map, List.length_reverse]
  exact digitsRev_length_le i i k hk

theorem pyStr_ne_empty (i : Nat) (hi : 1 ≤ i) : 1 ≤ (pyStr i).length := by
  unfold pyStr
  rw [if_neg (by omega)]
  show 1 ≤ (((digitsRev i i).reverse).map digitChar).length
  rw [List.length_map, List.length_reverse]
  cases i with
  | zero => omega
  | succ m => simp [digitsRev]

theorem candName_eq (base : String) (i : Nat) :
    candName base i = candStem base ++ "_" ++ pyStr i := by
  unfold candName candStem
  split
  · rfl
  · rfl

theorem candStem_length_le (base : String) (h : base.length ≤ 31) :
    (candStem base).length ≤ 28 := by
  unfold candStem
  split
  · show (base.data.take 28).length ≤ 28
    rw [List.length_take]
    omega
  · omega

theorem candName_length_le (base : String) (i : Nat) (hb : base.length ≤ 31)
    (h1 : 1 ≤ i) (h2 : i ≤ 99) : (candName base i).length ≤ 31 := by
  rw [candName_eq, String.length_append, String.length_append]
  have hp := candStem_length_le base hb
  have hs : (pyStr i).length ≤ 2 :=
    pyStr_length_le i 2 (by omega) (by norm_num; omega)
  have hu : ("_" : String).length = 1 := rfl
  omega

theorem candName_length_pos (base : String) (i : Nat) :
    1 ≤ (candName base i).length := by
  rw [candName_eq, String.length_append, String.length_append]
  have hu : ("_" : String).length = 1 := rfl
  omega

theorem candName_inj (base : String) : ∀ i j : Nat,
    candName base i = candName base j → i = j := by
  intro i j h
  rw [candName_eq, candName_eq] at h
  have hdata := congrArg String.data h
  rw [String.data_append, String.data_append, String.data_append,
    String.data_append] at hdata
  rw [List.append_assoc, List.append_assoc] at hdata
  have h2 := List.append_cancel_left hdata
  have h3 := List.append_cancel_left h2
  exact pyStr_injective i j (String.ext h3)

theorem exists_fresh_candName (used : List String) (base : String) :
    ∃ j, 1 ≤ j ∧ j ≤ used.length + 1 ∧ candName base j ∉ used := by
  by_contra hcon
  push_neg at hcon
  have hinj : Function.Injective
      (fun t : Fin (used.length + 1) => candName base (t.1 + 1)) := by
    intro t1 t2 h
    have := candName_inj base _ _ h
    exact Fin.ext (by omega)
  have hcard : (Finset.image
      (fun t : Fin (used.length + 1) => candName base (t.1 + 1)) Finset.univ).card
      = used.length + 1 := by
    rw [Finset.card_image_of_injective _ hinj, Finset.card_univ, Fintype.card_fin]
  have hsub : (Finset.image
      (fun t : Fin (used.length + 1) => candName base (t.1 + 1)) Finset.univ)
      ⊆ used.toFinset := by
    intro s hs
    rcases Finset.mem_image.1 hs with ⟨t, _, rfl⟩
    rw [List.mem_toFinset]
    exact hcon (t.1 + 1) (by omega) (by omega)
  have h1 := Finset.card_le_card hsub
  have h2 := used.toFinset_card_le
  omega

theorem resolveLoop_spec (used : List String) (base : String) :
    ∀ (fuel i : Nat), (∃ j, i ≤ j ∧ j < i + fuel ∧ candName base j ∉ used) →
    ∃ j0, i ≤ j0 ∧ j0 < i + fuel
      ∧ resolveLoop used base fuel i = candName base j0
      ∧ candName base j0 ∉ used
      ∧ ∀ m, i ≤ m → m < j0 → candName base m ∈ used := by
  intro fuel
  induction fuel with
  | zero =>
      intro i h
      rcases h with ⟨j, h1, h2, _⟩
      omega
  | succ f ih =>
      intro i h
      by_cases hc : candName base i ∈ used
      · have h' : ∃ j, i + 1 ≤ j ∧ j < (i + 1) + f ∧ candName base j ∉ used := by
          rcases h with ⟨j, h1, h2, h3⟩
          refine ⟨j, ?_, by omega, h3⟩
          rcases Nat.eq_or_lt_of_le h1 with he | hl
          · exact absurd (he ▸ hc) h3
          · omega
        rcases ih (i + 1) h' with ⟨j0, hj1, hj2, hj3, hj4, hj5⟩
        refine ⟨j0, by omega, by omega, ?_, hj4, ?_⟩
        · show (if candName base i ∈ used then resolveLoop used base f (i + 1)
            else candName base i) = candName base j0
          rw [if_pos hc]
          exact hj3
        · intro m hm1 hm2
          rcases Nat.eq_or_lt_of_le hm1 with he | hl
          · rw [← he]
            exact hc
          · exact hj5 m hl hm2
      · refine ⟨i, Nat.le_refl i, by omega, ?_, hc, by intro m h1 h2; omega⟩
        show (if candName base i ∈ used then resolveLoop used base f (i + 1)
          else candName base i) = candName base i
        rw [if_neg hc]

theorem resolveName_spec (used : List String) (base : String) :
    resolveName used base ∉ used
    ∧ (resolveName used base = base
      ∨ ∃ j0, 1 ≤ j0 ∧ j0 ≤ used.length + 1
          ∧ resolveName used base = candName base j0) := by
  unfold resolveName
  by_cases hb : base ∈ used
  · rw [if_pos hb]
    rcases exists_fresh_candName used base with ⟨j, hj1, hj2, hj3⟩
    rcases resolveLoop_spec used base (used.length + 1) 1 ⟨j, hj1, by omega, hj3⟩
      with ⟨j0, h1, h2, h3, h4, _⟩
    rw [h3]
    exact ⟨h4, Or.inr ⟨j0, h1, by omega, rfl⟩⟩
  · rw [if_neg hb]
    exact ⟨hb, Or.inl rfl⟩

theorem sanitize_sheet_name_length_le (name : String) :
    (sanitize_sheet_name name).length ≤ 31 := by
  unfold sanitize_sheet_name
  show (String.mk (List.take 31 _)).length ≤ 31
  show (List.take 31 _).length ≤ 31
  rw [List.length_take]
  omega

theorem sanitize_sheet_name_ne_empty (name : String) :
    1 ≤ (sanitize_sheet_name name).length := by
  unfold sanitize_sheet_name
  show 1 ≤ (String.mk (List.take 31
    (if (pyStrip (name.data.map _)).isEmpty then "Sheet".data
     else pyStrip (name.data.map _)))).length
  show 1 ≤ (List.take 31
    (if (pyStrip (name.data.map _)).isEmpty then "Sheet".data
     else pyStrip (name.data.map _))).length
  rw [List.length_take]
  cases hs : (pyStrip (name.data.map
      (fun ch => if ch ∈ invalidChars then '_' else ch))).isEmpty
  · simp only [Bool.false_eq_true, if_false]
    have : pyStrip (name.data.map
        (fun ch => if ch ∈ invalidChars then '_' else ch)) ≠ [] := by
      intro he
      rw [he] at hs
      cases hs
    have hlen : 0 < (pyStrip (name.data.map
        (fun ch => if ch ∈ invalidChars then '_' else ch))).length :=
      List.length_pos.2 this
    omega
  · simp only [if_true]
    simp

theorem length_ne_zero_of_pos {s : String} (h : 1 ≤ s.length) : s ≠ "" := by
  intro he
  rw [he] at h
  cases h

theorem resolveName_cases (used : List String) (name : String) :
    1 ≤ (resolveName used (sanitize_sheet_name name)).length
    ∧ (used.length + 1 ≤ 99 →
        (resolveName used (sanitize_sheet_name name)).length ≤ 31) := by
  rcases (resolveName_spec used (sanitize_sheet_name name)).2 with h | ⟨j0, h1, h2, h3⟩
  · rw [h]
    exact ⟨sanitize_sheet_name_ne_empty name,
      fun _ => sanitize_sheet_name_length_le name⟩
  · rw [h3]
    refine ⟨candName_length_pos _ _, fun hu => ?_⟩
    exact candName_length_le _ j0 (sanitize_sheet_name_length_le name) h1 (by omega)

theorem emitLoop_not_mem_used (raws : List String) :
    ∀ (used : List String), ∀ n ∈ emitLoop raws used false, n ∉ used := by
  induction raws with
  | nil => intro used n hn; cases hn
  | cons raw rest ih =>
      intro used n hn
      rcases List.mem_cons.1 hn with h1 | h1
      · subst h1
        exact (resolveName_spec used (sanitize_sheet_name raw)).1
      · intro hmem
        exact ih (used ++ [resolveName used (sanitize_sheet_name raw)]) n h1
          (List.mem_append.2 (Or.inl hmem))

theorem emitLoop_nodup (raws : List String) :
    ∀ (used : List String) (first : Bool), (emitLoop raws used first).Nodup := by
  induction raws with
  | nil => intro used first; exact List.nodup_nil
  | cons raw rest ih =>
      intro used first
      show (resolveName used (sanitize_sheet_name raw)
        :: emitLoop rest (if first then [resolveName used (sanitize_sheet_name raw)]
            else used ++ [resolveName used (sanitize_sheet_name raw)]) false).Nodup
      rw [List.nodup_cons]
      constructor
      · intro hmem
        have hself : resolveName used (sanitize_sheet_name raw)
            ∈ (if first then [resolveName used (sanitize_sheet_name raw)]
              else used ++ [resolveName used (sanitize_sheet_name raw)]) := by
          cases first
          · simp only [Bool.false_eq_true, if_false]
            exact List.mem_append.2 (Or.inr (List.mem_singleton.2 rfl))
          · simp only [if_true]
            exact List.mem_singleton.2 rfl
        exact emitLoop_not_mem_used rest _ _ hmem hself
      · exact ih _ false

theorem emitLoop_ne_empty (raws : List String) :
    ∀ (used : List String) (first : Bool),
    ∀ n ∈ emitLoop raws used first, n ≠ "" := by
  induction raws with
  | nil => intro used first n hn; cases hn
  | cons raw rest ih =>
      intro used first n hn
      rcases List.mem_cons.1 hn with h1 | h1
      · subst h1
        exact length_ne_zero_of_pos (resolveName_cases used raw).1
      · exact ih _ false n h1

theorem emitLoop_length_le (raws : List String) :
    ∀ (used : List String), used.length + raws.length ≤ 99 →
    ∀ n ∈ emitLoop raws used false, n.length ≤ 31 := by
  induction raws with
  | nil => intro used _ n hn; cases hn
  | cons raw rest ih =>
      intro used hsum n hn
      rcases List.mem_cons.1 hn with h1 | h1
      · subst h1
        refine (resolveName_cases used raw).2 ?_
        simp only [List.length_cons] at hsum
        omega
      · refine ih (used ++ [resolveName used (sanitize_sheet_name raw)]) ?_ n h1
        rw [List.length_append]
        simp only [List.length_cons] at hsum ⊢
        simp
        omega

/-- C9 (amended): the sheet names actually assigned by
`write_excel_with_openpyxl` are always pairwise distinct and non-empty; and
whenever the workbook has at most 99 sheets every assigned name has at most
31 characters.  (With 100 or more sheets the collision suffix `_i` can
reach three digits and push a 28-character base to 32 characters, see the
counterexample.) -/
theorem C9_amended (raws : List String) :
    (emitNames raws).Nodup
    ∧ (∀ n ∈ emitNames raws, n ≠ "")
    ∧ (raws.length ≤ 99 → ∀ n ∈ emitNames raws, n.length ≤ 31) := by
  refine ⟨emitLoop_nodup raws _ _, emitLoop_ne_empty raws _ _, ?_⟩
  intro hle n hn
  cases raws with
  | nil => cases hn
  | cons raw rest =>
      have hshape : emitNames (raw :: rest)
          = resolveName ["Sheet"] (sanitize_sheet_name raw)
            :: emitLoop rest [resolveName ["Sheet"] (sanitize_sheet_name raw)] false := rfl
      rw [hshape] at hn
      rcases List.mem_cons.1 hn with h1 | h1
      · subst h1
        exact (resolveName_cases ["Sheet"] raw).2 (by simp)
      · refine emitLoop_length_le rest
          [resolveName ["Sheet"] (sanitize_sheet_name raw)] ?_ n h1
        simp only [List.length_cons] at hle
        simp
        omega

/-- Witness for the amended C9: two sheets both named `a` come out as the
distinct, non-empty, short names `a` and `a_1`. -/
theorem C9_amended_witness :
    (["a", "a"].length ≤ 99)
    ∧ (emitNames ["a", "a"]).Nodup
    ∧ ("a_1" : String) ≠ ""
    ∧ ("a_1" : String).length ≤ 31 :=
  ⟨by decide, (C9_amended ["a", "a"]).1,
   (C9_amended ["a", "a"]).2.1 "a_1" (by decide),
   (C9_amended ["a", "a"]).2.2 (by decide) "a_1" (by decide)⟩

theorem emitLoop_append (l1 l2 : List String) :
    ∀ used, emitLoop (l1 ++ l2) used false
      = emitLoop l1 used false
        ++ emitLoop l2 (used ++ emitLoop l1 used false) false := by
  induction l1 with
  | nil => intro used; simp [emitLoop]
  | cons r rest ih =>
      intro used
      show resolveName used (sanitize_sheet_name r)
          :: emitLoop (rest ++ l2)
            (used ++ [resolveName used (sanitize_sheet_name r)]) false
        = (resolveName used (sanitize_sheet_name r)
            :: emitLoop rest (used ++ [resolveName used (sanitize_sheet_name r)]) false)
          ++ emitLoop l2 (used ++ resolveName used (sanitize_sheet_name r)
            :: emitLoop rest (used ++ [resolveName used (sanitize_sheet_name r)]) false) false
      rw [ih]
      simp

theorem resolveLoop_step (used : List String) (base : String) (fuel i : Nat)
    (h : candName base i ∈ used) :
    resolveLoop used base (fuel + 1) i = resolveLoop used base fuel (i + 1) := by
  show (if candName base i ∈ used then resolveLoop used base fuel (i + 1)
    else candName base i) = resolveLoop used base fuel (i + 1)
  rw [if_pos h]

theorem resolveLoop_skip_many (used : List String) (base : String) :
    ∀ (d a : Nat), (∀ m, a ≤ m → m < a + d → candName base m ∈ used) →
    ∀ fuel, resolveLoop used base (fuel + d) a = resolveLoop used base fuel (a + d) := by
  intro d
  induction d with
  | zero => intro a _ fuel; rfl
  | succ e ih =>
      intro a h fuel
      have h1 : candName base a ∈ used := h a (Nat.le_refl a) (by omega)
      have hstep : resolveLoop used base ((fuel + e) + 1) a
          = resolveLoop used base (fuel + e) (a + 1) :=
        resolveLoop_step used base (fuel + e) a h1
      have hrest : resolveLoop used base (fuel + e) (a + 1)
          = resolveLoop used base fuel ((a + 1) + e) :=
        ih (a + 1) (fun m hm1 hm2 => h m (by omega) (by omega)) fuel
      have heq : (a + 1) + e = a + (e + 1) := by omega
      calc resolveLoop used base (fuel + (e + 1)) a
          = resolveLoop used base (fuel + e) (a + 1) := hstep
        _ = resolveLoop used base fuel ((a + 1) + e) := hrest
        _ = resolveLoop used base fuel (a + (e + 1)) := by rw [heq]


theorem cexStem_cand : candStem (cexStem ++ "_50") = cexStem := by decide

theorem cexName_candName (m : Nat) :
    candName (cexStem ++ "_50") m = cexName m := by
  rw [candName_eq, cexStem_cand]
  rfl

theorem cexName_inj (i j : Nat) (h : cexName i = cexName j) : i = j := by
  apply candName_inj (cexStem ++ "_50")
  rw [cexName_candName, cexName_candName]
  exact h

theorem cexName_mem_map (lN : List Nat) (t : Nat) :
    cexName t ∈ lN.map cexName ↔ t ∈ lN := by
  constructor
  · intro h
    rcases List.mem_map.1 h with ⟨j, hj, hj2⟩
    rw [← cexName_inj j t hj2]
    exact hj
  · intro h
    exact List.mem_map.2 ⟨t, h, rfl⟩

theorem resolveName_not_mem {used : List String} {base : String}
    (h : base ∉ used) : resolveName used base = base := by
  unfold resolveName
  rw [if_neg h]

theorem dropWhile_eq_self_of_false {f : Char → Bool} {l : List Char}
    (h : ∀ c ∈ l, f c = false) : l.dropWhile f = l := by
  cases l with
  | nil => rfl
  | cons a rest =>
      rw [List.dropWhile_cons, h a (List.mem_cons_self a rest)]
      simp

theorem pyStrip_eq_self {l : List Char}
    (h : ∀ c ∈ l, isPySpace c = false) : pyStrip l = l := by
  unfold pyStrip
  rw [dropWhile_eq_self_of_false h,
    dropWhile_eq_self_of_false (fun c hc => h c (List.mem_reverse.1 hc)),
    List.reverse_reverse]

theorem sanitize_eq_self (s : String)
    (hchar : ∀ c ∈ s.data, (c ∈ invalidChars → False) ∧ isPySpace c = false)
    (hlen : s.length ≤ 31) (hne : s.data ≠ []) :
    sanitize_sheet_name s = s := by
  obtain ⟨l⟩ := s
  unfold sanitize_sheet_name
  have hmap : l.map (fun ch => if ch ∈ invalidChars then '_' else ch) = l := by
    have h1 : l.map (fun ch => if ch ∈ invalidChars then '_' else ch) = l.map id := by
      apply List.map_congr_left
      intro c hc
      exact if_neg (hchar c hc).1
    rw [h1, List.map_id]
  show String.mk ((if (pyStrip (l.map (fun ch => if ch ∈ invalidChars then '_' else ch))).isEmpty
      then "Sheet".data
      else pyStrip (l.map (fun ch => if ch ∈ invalidChars then '_' else ch))).take 31) = _
  rw [hmap, pyStrip_eq_self (fun c hc => (hchar c hc).2),
    isEmpty_false_of_ne_nil hne]
  simp only [Bool.false_eq_true, if_false]
  rw [List.take_of_length_le hlen]

theorem pyStr_data (t : Nat) (h : 1 ≤ t) :
    (pyStr t).data = (digitsRev t t).reverse.map digitChar := by
  unfold pyStr
  rw [if_neg (by omega)]

theorem cexName_data (t : Nat) (h : 1 ≤ t) :
    (cexName t).data
      = List.replicate 28 'A' ++ '_' :: ((digitsRev t t).reverse.map digitChar) := by
  show (cexStem ++ "_" ++ pyStr t).data = _
  rw [String.data_append, String.data_append, pyStr_data t h]
  rfl

theorem digitChar_good : ∀ d : Nat, d < 10 →
    (digitChar d ∈ invalidChars → False) ∧ isPySpace (digitChar d) = false := by
  decide

theorem cexName_chars (t : Nat) (h : 1 ≤ t) :
    ∀ c ∈ (cexName t).data, (c ∈ invalidChars → False) ∧ isPySpace c = false := by
  rw [cexName_data t h]
  intro c hc
  rcases List.mem_append.1 hc with h1 | h1
  · rw [List.eq_of_mem_replicate h1]
    decide
  · rcases List.mem_cons.1 h1 with h2 | h2
    · rw [h2]
      decide
    · rcases List.mem_map.1 h2 with ⟨d, hd, hd2⟩
      rw [← hd2]
      exact digitChar_good d (digitsRev_lt10 t t d (List.mem_reverse.1 hd))

theorem cexName_length (t : Nat) : (cexName t).length = 29 + (pyStr t).length := by
  show (cexStem ++ "_" ++ pyStr t).length = _
  rw [String.length_append, String.length_append]
  have h1 : cexStem.length = 28 := rfl
  have h2 : ("_" : String).length = 1 := rfl
  omega

theorem sanitize_cexName (t : Nat) (h1 : 1 ≤ t) (h99 : t ≤ 99) :
    sanitize_sheet_name (cexName t) = cexName t := by
  apply sanitize_eq_self
  · exact cexName_chars t h1
  · rw [cexName_length]
    have := pyStr_length_le t 2 (by omega) (by norm_num; omega)
    omega
  · rw [cexName_data t h1]
    simp

theorem cex_emitLoop (l : List Nat) :
    ∀ (u : List Nat),
    (∀ i ∈ l, 1 ≤ i ∧ i ≤ 99) →
    (∀ i ∈ l, i ∉ u) →
    l.Nodup →
    emitLoop (l.map cexName) (u.map cexName) false = l.map cexName := by
  induction l with
  | nil => intro u _ _ _; rfl
  | cons t rest ih =>
      intro u hrange hu hnodup
      have ht := hrange t (List.mem_cons_self t rest)
      show resolveName (u.map cexName) (sanitize_sheet_name (cexName t))
          :: emitLoop (rest.map cexName)
            (u.map cexName ++ [resolveName (u.map cexName) (sanitize_sheet_name (cexName t))])
            false
        = cexName t :: rest.map cexName
      rw [sanitize_cexName t ht.1 ht.2]
      rw [resolveName_not_mem (by
        rw [cexName_mem_map]
        exact hu t (List.mem_cons_self t rest))]
      rw [show u.map cexName ++ [cexName t] = (u ++ [t]).map cexName from
        (List.map_append cexName u [t]).symm]
      rw [ih (u ++ [t])
        (fun i hi => hrange i (List.mem_cons_of_mem t hi))
        (fun i hi hmem => by
          rcases List.mem_append.1 hmem with hA | hA
          · exact hu i (List.mem_cons_of_mem t hi) hA
          · rw [List.mem_singleton.1 hA] at hi
            exact (List.nodup_cons.1 hnodup).1 hi)
        (List.nodup_cons.1 hnodup).2]

theorem mem_range'_iff (m s n : Nat) : m ∈ List.range' s n ↔ s ≤ m ∧ m < s + n :=
  List.mem_range'_1

theorem cex_sanitize_last :
    sanitize_sheet_name (cexStem ++ "_50?") = cexStem ++ "_50" := by decide

theorem cex_base_eq : cexStem ++ "_50" = cexName 50 := by decide

theorem cex_loop_all :
    resolveLoop ((List.range' 1 99).map cexName) (cexStem ++ "_50") 100 1
      = cexStem ++ "_100" := by
  have hmem : ∀ m, 1 ≤ m → m < 1 + 99 →
      candName (cexStem ++ "_50") m ∈ (List.range' 1 99).map cexName := by
    intro m h1 h2
    rw [cexName_candName, cexName_mem_map, mem_range'_iff]
    omega
  have h1 : resolveLoop ((List.range' 1 99).map cexName) (cexStem ++ "_50") (1 + 99) 1
      = resolveLoop ((List.range' 1 99).map cexName) (cexStem ++ "_50") 1 (1 + 99) :=
    resolveLoop_skip_many _ _ 99 1 hmem 1
  have h2 : resolveLoop ((List.range' 1 99).map cexName) (cexStem ++ "_50") 100 1
      = resolveLoop ((List.range' 1 99).map cexName) (cexStem ++ "_50") 1 100 := h1
  rw [h2]
  show (if candName (cexStem ++ "_50") 100 ∈ (List.range' 1 99).map cexName then
      resolveLoop ((List.range' 1 99).map cexName) (cexStem ++ "_50") 0 101
    else candName (cexStem ++ "_50") 100) = cexStem ++ "_100"
  rw [if_neg (by
    rw [cexName_candName, cexName_mem_map, mem_range'_iff]
    omega)]
  rw [cexName_candName]
  decide

theorem cex_last :
    emitLoop [cexStem ++ "_50?"] ((List.range' 1 99).map cexName) false
      = [cexStem ++ "_100"] := by
  show [resolveName ((List.range' 1 99).map cexName)
      (sanitize_sheet_name (cexStem ++ "_50?"))]
    = [cexStem ++ "_100"]
  rw [cex_sanitize_last]
  show [if (cexStem ++ "_50") ∈ (List.range' 1 99).map cexName then
      resolveLoop ((List.range' 1 99).map cexName) (cexStem ++ "_50")
        (((List.range' 1 99).map cexName).length + 1) 1
    else cexStem ++ "_50"] = [cexStem ++ "_100"]
  rw [if_pos (by
    rw [cex_base_eq, cexName_mem_map, mem_range'_iff]
    omega)]
  have hlen : ((List.range' 1 99).map cexName).length + 1 = 100 := by
    rw [List.length_map]
    simp [List.length_range']
  rw [hlen, cex_loop_all]

/-- C9 refutation: with the 100 colliding sheet names of `cexRaws` the
export layer's collision resolution assigns the last sheet the name
`AAAA…A_100`, which has 32 characters — more than the 31 the claim
guarantees. -/
theorem C9_counterexample :
    (emitNames cexRaws).getLast? = some (cexStem ++ "_100")
    ∧ (cexStem ++ "_100").length = 32 := by
  refine ⟨?_, by decide⟩
  have h0 : emitNames cexRaws
      = resolveName ["Sheet"] (sanitize_sheet_name (cexName 1))
        :: emitLoop ((List.range' 2 98).map cexName ++ [cexStem ++ "_50?"])
          [resolveName ["Sheet"] (sanitize_sheet_name (cexName 1))] false := rfl
  have hn1 : resolveName ["Sheet"] (sanitize_sheet_name (cexName 1)) = cexName 1 := by
    rw [sanitize_cexName 1 (by omega) (by omega)]
    exact resolveName_not_mem (by decide)
  rw [h0, hn1]
  rw [show ([cexName 1] : List String) = ([1] : List Nat).map cexName from rfl]
  rw [emitLoop_append]
  rw [cex_emitLoop (List.range' 2 98) [1]
    (fun i hi => by
      rw [mem_range'_iff] at hi
      omega)
    (fun i hi => by
      rw [mem_range'_iff] at hi
      intro hmem
      rw [List.mem_singleton.1 hmem] at hi
      omega)
    (by
      apply List.nodup_range'
      norm_num)]
  rw [show ([1] : List Nat).map cexName ++ (List.range' 2 98).map cexName
      = (List.range' 1 99).map cexName from rfl]
  rw [cex_last]
  rw [← List.cons_append]
  rw [List.getLast?_concat]
